import Mathlib

/-!
Verification of the wire codec, TCP framing and peer-discovery logic of a
LAN messenger.  The Python source is shallowly embedded: Python `str` values
are modelled as lists of Unicode code points (`PyStr`), JSON values as the
mutual inductives `Json`/`JsonArr`/`JsonObj` (objects keep Python's
dict insertion-order semantics), `json.dumps` / `json.loads` as the
executable serializer `serJson` and the fuel-based parser `parseVal`, and
UTF-8 encoding/decoding as explicit byte-level functions on `List Nat`.
Floating-point JSON numbers are outside the model: the embedded parser
rejects them, which only widens the decode-failure set; no success claim
relies on that restriction.
-/

namespace PiMessenger

/-- A Python string: a list of Unicode code points. -/
abbrev PyStr := List Nat

/-- Convert a Lean string literal to the code-point model. -/
def pyStr (s : String) : PyStr := s.data.map Char.toNat

mutual

/-- A JSON value as produced by Python's `json` module (floats excluded). -/
inductive Json where
  | null : Json
  | bool : Bool → Json
  | int : Int → Json
  | str : PyStr → Json
  | arr : JsonArr → Json
  | obj : JsonObj → Json
deriving DecidableEq

/-- A list of JSON values (the contents of a JSON array). -/
inductive JsonArr where
  | nil : JsonArr
  | cons : Json → JsonArr → JsonArr
deriving DecidableEq

/-- An insertion-ordered string-keyed mapping (a Python dict of JSON values). -/
inductive JsonObj where
  | nil : JsonObj
  | cons : PyStr → Json → JsonObj → JsonObj
deriving DecidableEq

end

/-- Keys of an object, in insertion order. -/
def JsonObj.keys : JsonObj → List PyStr
  | .nil => []
  | .cons k _ t => k :: t.keys

/-- Dict lookup: value stored at key `k` (objects built by the parser or by
`setKey` have at most one entry per key). -/
def JsonObj.find : JsonObj → PyStr → Option Json
  | .nil, _ => none
  | .cons k v t, k' => if k = k' then some v else t.find k'

/-- Membership of a key. -/
def JsonObj.hasKey (o : JsonObj) (k : PyStr) : Bool := (o.find k).isSome

/-- Python dict assignment `d[k] = v`: overwrite in place if the key exists,
otherwise append at the end. -/
def JsonObj.setKey : JsonObj → PyStr → Json → JsonObj
  | .nil, k, v => .cons k v .nil
  | .cons k' v' t, k, v => if k' = k then .cons k' v t else .cons k' v' (t.setKey k v)

/-! ## Serializer: the model of `json.dumps` with its default options
(`ensure_ascii=True`, separators `", "` and `": "`). -/

/-- Lowercase hexadecimal digit for a nibble. -/
def hexDigit (n : Nat) : Nat := if n < 10 then 48 + n else 87 + n

/-- Four lowercase hex digits of `n % 0x10000`, most significant first. -/
def hex4 (n : Nat) : PyStr :=
  [hexDigit (n / 4096 % 16), hexDigit (n / 256 % 16), hexDigit (n / 16 % 16), hexDigit (n % 16)]

/-- How `json.dumps` renders one character of a string under `ensure_ascii`:
the short escapes for quote, backslash and the common control characters,
printable ASCII verbatim, `\uXXXX` otherwise, with astral code points as a
surrogate pair. -/
def escChar (c : Nat) : PyStr :=
  if c = 34 then [92, 34]
  else if c = 92 then [92, 92]
  else if c = 8 then [92, 98]
  else if c = 9 then [92, 116]
  else if c = 10 then [92, 110]
  else if c = 12 then [92, 102]
  else if c = 13 then [92, 114]
  else if 32 ≤ c ∧ c ≤ 126 then [c]
  else if c < 65536 then 92 :: 117 :: hex4 c
  else (92 :: 117 :: hex4 (55296 + (c - 65536) / 1024)) ++ (92 :: 117 :: hex4 (56320 + (c - 65536) % 1024))

/-- Serialized JSON string: quote, escaped characters, quote. -/
def serStr (s : PyStr) : PyStr := 34 :: (s.flatMap escChar) ++ [34]

/-- Little-endian decimal digits of `n`, with explicit fuel (`fuel ≥ n`
suffices); fuel keeps the definition structurally recursive so that it
reduces inside the kernel. -/
def natDigitsRev : Nat → Nat → List Nat
  | 0, _ => []
  | fuel + 1, n => if n = 0 then [] else n % 10 :: natDigitsRev fuel (n / 10)

/-- Decimal rendering of a natural number (code points). -/
def serNat (n : Nat) : PyStr :=
  if n = 0 then [48] else (natDigitsRev n n).reverse.map (· + 48)

/-- Decimal rendering of a Python int, as `str(n)`. -/
def serInt : Int → PyStr
  | .ofNat n => serNat n
  | .negSucc k => 45 :: serNat (k + 1)

mutual

/-- The model of `json.dumps` (default separators: `", "` between items and
`": "` after keys). -/
def serJson : Json → PyStr
  | .null => [110, 117, 108, 108]
  | .bool true => [116, 114, 117, 101]
  | .bool false => [102, 97, 108, 115, 101]
  | .int n => serInt n
  | .str s => serStr s
  | .arr a => 91 :: serArr a ++ [93]
  | .obj o => 123 :: serObj o ++ [125]

/-- Array items joined by `", "`. -/
def serArr : JsonArr → PyStr
  | .nil => []
  | .cons h .nil => serJson h
  | .cons h (.cons h' t) => serJson h ++ [44, 32] ++ serArr (.cons h' t)

/-- Object members `"key": value` joined by `", "`. -/
def serObj : JsonObj → PyStr
  | .nil => []
  | .cons k v .nil => serStr k ++ [58, 32] ++ serJson v
  | .cons k v (.cons k' v' t) => serStr k ++ [58, 32] ++ serJson v ++ [44, 32] ++ serObj (.cons k' v' t)

end

/-! ## Well-formedness: proper Unicode strings (no surrogates) and
duplicate-free object keys, the shape every value built from live Python
data (`str` / `dict`) has. -/

/-- A code point a Python `str` produced by well-formed data holds: in range
and not a lone surrogate. -/
def goodCp (c : Nat) : Bool := decide (c < 1114112) && !(decide (55296 ≤ c) && decide (c < 57344))

/-- All keys in the list are proper Unicode strings. -/
def wfKeys : List PyStr → Bool
  | [] => true
  | k :: t => k.all goodCp && wfKeys t

mutual

/-- Well-formedness of a JSON value. -/
def wfJson : Json → Bool
  | .null => true
  | .bool _ => true
  | .int _ => true
  | .str s => s.all goodCp
  | .arr a => wfArr a
  | .obj o => wfObj o && wfKeys o.keys && decide o.keys.Nodup

/-- Well-formedness of every array element. -/
def wfArr : JsonArr → Bool
  | .nil => true
  | .cons h t => wfJson h && wfArr t

/-- Well-formedness of every object value. -/
def wfObj : JsonObj → Bool
  | .nil => true
  | .cons _ v t => wfJson v && wfObj t

end

/-! ## Parser: the model of `json.loads` (strict mode).  The only departure
from CPython is that fractional/exponent number syntax and the `NaN` /
`Infinity` constants are rejected instead of producing floats. -/

/-- JSON whitespace accepted by Python (`space`, `\t`, `\n`, `\r`). -/
def isWs (c : Nat) : Bool := c = 32 || c = 9 || c = 10 || c = 13

/-- Skip leading whitespace. -/
def skipWs (s : PyStr) : PyStr := s.dropWhile isWs

/-- Value of one hexadecimal digit character (either case). -/
def hexVal (c : Nat) : Option Nat :=
  if 48 ≤ c ∧ c ≤ 57 then some (c - 48)
  else if 97 ≤ c ∧ c ≤ 102 then some (c - 87)
  else if 65 ≤ c ∧ c ≤ 70 then some (c - 55)
  else none

/-- Parse exactly four hex digits (the `XXXX` of a `\uXXXX` escape). -/
def parseHex4 : PyStr → Option (Nat × PyStr)
  | a :: b :: c :: d :: r =>
    match hexVal a, hexVal b, hexVal c, hexVal d with
    | some x, some y, some z, some w => some (x * 4096 + y * 256 + z * 16 + w, r)
    | _, _, _, _ => none
  | _ => none

theorem parseHex4_length : ∀ {s : PyStr} {n : Nat} {r : PyStr},
    parseHex4 s = some (n, r) → r.length + 4 = s.length := by
  intro s n r h
  match s with
  | [] | [_] | [_, _] | [_, _, _] => simp [parseHex4] at h
  | a :: b :: c :: d :: r' =>
    simp only [parseHex4] at h
    split at h
    · simp only [Option.some.injEq, Prod.mk.injEq] at h
      obtain ⟨-, rfl⟩ := h
      simp [List.length_cons]
    · exact absurd h (by simp)

/-- Body of a JSON string after the opening quote, following CPython's
`scanstring` in strict mode: plain characters up to the closing quote
(control characters rejected), the short escapes, and `\uXXXX` escapes with
high/low surrogate pairs combined exactly the way CPython combines them.
The fuel keeps the recursion structural (so it reduces in the kernel);
`input.length + 1` always suffices since every step consumes a character. -/
def parseStrBody : Nat → PyStr → Option (PyStr × PyStr)
  | 0, _ => none
  | _ + 1, [] => none
  | fuel + 1, c :: r =>
    if c = 34 then some ([], r)
    else if c = 92 then
      match r with
      | [] => none
      | e :: r2 =>
        if e = 34 then (parseStrBody fuel r2).map (fun p => (34 :: p.1, p.2))
        else if e = 92 then (parseStrBody fuel r2).map (fun p => (92 :: p.1, p.2))
        else if e = 47 then (parseStrBody fuel r2).map (fun p => (47 :: p.1, p.2))
        else if e = 98 then (parseStrBody fuel r2).map (fun p => (8 :: p.1, p.2))
        else if e = 102 then (parseStrBody fuel r2).map (fun p => (12 :: p.1, p.2))
        else if e = 110 then (parseStrBody fuel r2).map (fun p => (10 :: p.1, p.2))
        else if e = 114 then (parseStrBody fuel r2).map (fun p => (13 :: p.1, p.2))
        else if e = 116 then (parseStrBody fuel r2).map (fun p => (9 :: p.1, p.2))
        else if e = 117 then
          match parseHex4 r2 with
          | none => none
          | some (n, r3) =>
            if 55296 ≤ n ∧ n < 56320 then
              match r3 with
              | 92 :: 117 :: r4 =>
                match parseHex4 r4 with
                | none => none
                | some (n2, r5) =>
                  if 56320 ≤ n2 ∧ n2 < 57344 then
                    (parseStrBody fuel r5).map
                      (fun p => ((65536 + (n - 55296) * 1024 + (n2 - 56320)) :: p.1, p.2))
                  else (parseStrBody fuel r3).map (fun p => (n :: p.1, p.2))
              | _ => (parseStrBody fuel r3).map (fun p => (n :: p.1, p.2))
            else (parseStrBody fuel r3).map (fun p => (n :: p.1, p.2))
        else none
    else if c < 32 then none
    else (parseStrBody fuel r).map (fun p => (c :: p.1, p.2))

/-- Decimal digit character. -/
def isDigit (c : Nat) : Bool := 48 ≤ c && c ≤ 57

/-- Numeric value of a list of decimal digit characters. -/
def digitsVal (ds : List Nat) : Nat := ds.foldl (fun a c => a * 10 + (c - 48)) 0

/-- The next character would extend the literal into float syntax. -/
def nextIsFloat : PyStr → Bool
  | [] => false
  | c :: _ => c = 46 || c = 101 || c = 69

/-- Integer literal after an optional sign: a maximal run of digits with no
redundant leading zero, not followed by `.`/`e`/`E` (floats are outside the
model). -/
def parseNumBody (s : PyStr) (neg : Bool) : Option (Json × PyStr) :=
  let ds := s.takeWhile isDigit
  let r := s.dropWhile isDigit
  if ds = [] then none
  else if 1 < ds.length ∧ ds.head? = some 48 then none
  else if nextIsFloat r then none
  else some (.int (if neg then -(Int.ofNat (digitsVal ds)) else Int.ofNat (digitsVal ds)), r)

/-- Parse a JSON number (integer). -/
def parseNumber : PyStr → Option (Json × PyStr)
  | [] => none
  | c :: r => if c = 45 then parseNumBody r true else parseNumBody (c :: r) false

mutual

/-- Parse one JSON value (CPython's `scan_once`).  The fuel only bounds the
nesting of recursive `parseVal` calls; `input.length + 1` always suffices. -/
def parseVal : Nat → PyStr → Option (Json × PyStr)
  | 0, _ => none
  | _ + 1, [] => none
  | fuel + 1, c :: r =>
    if c = 34 then (parseStrBody (r.length + 1) r).map (fun p => (.str p.1, p.2))
    else if c = 123 then
      match skipWs r with
      | 125 :: r2 => some (.obj .nil, r2)
      | r' => (parseMembers fuel r' .nil).map (fun p => (.obj p.1, p.2))
    else if c = 91 then
      match skipWs r with
      | 93 :: r2 => some (.arr .nil, r2)
      | r' => (parseElems fuel r').map (fun p => (.arr p.1, p.2))
    else if c = 110 then
      match r with
      | 117 :: 108 :: 108 :: rest => some (.null, rest)
      | _ => none
    else if c = 116 then
      match r with
      | 114 :: 117 :: 101 :: rest => some (.bool true, rest)
      | _ => none
    else if c = 102 then
      match r with
      | 97 :: 108 :: 115 :: 101 :: rest => some (.bool false, rest)
      | _ => none
    else parseNumber (c :: r)

/-- Parse the elements of a non-empty array, starting at the first element. -/
def parseElems : Nat → PyStr → Option (JsonArr × PyStr)
  | 0, _ => none
  | fuel + 1, s =>
    match parseVal fuel s with
    | none => none
    | some (v, r) =>
      match skipWs r with
      | 44 :: r2 => (parseElems fuel (skipWs r2)).map (fun p => (.cons v p.1, p.2))
      | 93 :: r2 => some (.cons v .nil, r2)
      | _ => none

/-- Parse the members of a non-empty object, starting at the first key;
members are stored with Python dict assignment (`setKey`), so later
duplicate keys overwrite earlier values in place. -/
def parseMembers : Nat → PyStr → JsonObj → Option (JsonObj × PyStr)
  | 0, _, _ => none
  | fuel + 1, s, acc =>
    match s with
    | 34 :: r =>
      match parseStrBody (r.length + 1) r with
      | none => none
      | some (k, r2) =>
        match skipWs r2 with
        | 58 :: r3 =>
          match parseVal fuel (skipWs r3) with
          | none => none
          | some (v, r4) =>
            match skipWs r4 with
            | 44 :: r5 => parseMembers fuel (skipWs r5) (acc.setKey k v)
            | 125 :: r5 => some (acc.setKey k v, r5)
            | _ => none
        | _ => none
    | _ => none

end

/-- The model of `json.loads`: skip surrounding whitespace, parse one value,
require the input to be exhausted. -/
def loads (s : PyStr) : Option Json :=
  match parseVal ((skipWs s).length + 1) (skipWs s) with
  | some (j, rest) => if skipWs rest = [] then some j else none
  | none => none

/-! ## UTF-8: the model of `str.encode("utf-8")` / `bytes.decode("utf-8")`
in strict mode (the defaults used by `Message.to_bytes` / `from_bytes`).
Bytes are modelled as `List Nat`. -/

/-- Encode one code point; `none` on lone surrogates and out-of-range values
(Python raises `UnicodeEncodeError` there). -/
def utf8EncCp (c : Nat) : Option (List Nat) :=
  if c < 128 then some [c]
  else if c < 2048 then some [192 + c / 64, 128 + c % 64]
  else if c < 65536 then
    if 55296 ≤ c ∧ c < 57344 then none
    else some [224 + c / 4096, 128 + c / 64 % 64, 128 + c % 64]
  else if c < 1114112 then
    some [240 + c / 262144, 128 + c / 4096 % 64, 128 + c / 64 % 64, 128 + c % 64]
  else none

/-- Encode a string to UTF-8 bytes. -/
def utf8Enc : PyStr → Option (List Nat)
  | [] => some []
  | c :: r =>
    match utf8EncCp c, utf8Enc r with
    | some bs, some rest => some (bs ++ rest)
    | _, _ => none

/-- A UTF-8 continuation byte. -/
def isCont (b : Nat) : Bool := 128 ≤ b && b < 192

/-- Code point of a two-byte sequence. -/
def dec2val (b b1 : Nat) : Nat := (b - 192) * 64 + (b1 - 128)

/-- Code point of a three-byte sequence. -/
def dec3val (b b1 b2 : Nat) : Nat := (b - 224) * 4096 + (b1 - 128) * 64 + (b2 - 128)

/-- Code point of a four-byte sequence. -/
def dec4val (b b1 b2 b3 : Nat) : Nat :=
  (b - 240) * 262144 + (b1 - 128) * 4096 + (b2 - 128) * 64 + (b3 - 128)

/-- A three-byte sequence value is acceptable: not overlong, not a surrogate. -/
def valid3 (v : Nat) : Bool := decide (2048 ≤ v) && !(decide (55296 ≤ v) && decide (v < 57344))

/-- A four-byte sequence value is acceptable: not overlong, within Unicode. -/
def valid4 (v : Nat) : Bool := decide (65536 ≤ v) && decide (v < 1114112)

/-- Strict UTF-8 decoding worker: rejects stray continuation bytes, overlong
forms, surrogates, values above U+10FFFF and truncated sequences, exactly as
CPython's strict `utf-8` codec does.  The fuel keeps the recursion
structural; `input.length + 1` always suffices since every step consumes at
least one byte. -/
def utf8DecF : Nat → List Nat → Option PyStr
  | 0, _ => none
  | _ + 1, [] => some []
  | fuel + 1, b :: r =>
    if b < 128 then (utf8DecF fuel r).map (b :: ·)
    else if b < 194 then none
    else if b < 224 then
      match r with
      | b1 :: r1 => if isCont b1 then (utf8DecF fuel r1).map (dec2val b b1 :: ·) else none
      | _ => none
    else if b < 240 then
      match r with
      | b1 :: b2 :: r2 =>
        if isCont b1 && isCont b2 && valid3 (dec3val b b1 b2) then
          (utf8DecF fuel r2).map (dec3val b b1 b2 :: ·)
        else none
      | _ => none
    else if b < 245 then
      match r with
      | b1 :: b2 :: b3 :: r3 =>
        if isCont b1 && isCont b2 && isCont b3 && valid4 (dec4val b b1 b2 b3) then
          (utf8DecF fuel r3).map (dec4val b b1 b2 b3 :: ·)
        else none
      | _ => none
    else none

/-- The model of `bytes.decode("utf-8")` in strict mode. -/
def utf8Dec (bs : List Nat) : Option PyStr := utf8DecF (bs.length + 1) bs

/-! ## The wire protocol: `src/core/protocol.py`. -/

/-- The seven recognized envelope types (`MessageType` in `protocol.py`). -/
inductive MessageType where
  | DISCOVERY | TEXT | FILE_OFFER | FILE_ACCEPT | FILE_REJECT | FILE_DATA | FILE_END
deriving DecidableEq

/-- The string value of each enum member. -/
def MessageType.value : MessageType → PyStr
  | .DISCOVERY => pyStr "DISCOVERY"
  | .TEXT => pyStr "TEXT"
  | .FILE_OFFER => pyStr "FILE_OFFER"
  | .FILE_ACCEPT => pyStr "FILE_ACCEPT"
  | .FILE_REJECT => pyStr "FILE_REJECT"
  | .FILE_DATA => pyStr "FILE_DATA"
  | .FILE_END => pyStr "FILE_END"

/-- The enum constructor `MessageType(v)`: succeeds only on the seven string
values, `ValueError` (here `none`) otherwise. -/
def messageTypeOf : Json → Option MessageType
  | .str s =>
    if s = pyStr "DISCOVERY" then some .DISCOVERY
    else if s = pyStr "TEXT" then some .TEXT
    else if s = pyStr "FILE_OFFER" then some .FILE_OFFER
    else if s = pyStr "FILE_ACCEPT" then some .FILE_ACCEPT
    else if s = pyStr "FILE_REJECT" then some .FILE_REJECT
    else if s = pyStr "FILE_DATA" then some .FILE_DATA
    else if s = pyStr "FILE_END" then some .FILE_END
    else none
  | _ => none

/-- The `Message` dataclass.  The dataclass does not enforce the annotated
field types, so `sender_name`, `sender_ip` and `payload` hold whatever JSON
value decoding put there; `payload` defaults to `None` (`Json.null`). -/
structure Message where
  type : MessageType
  sender_name : Json
  sender_ip : Json
  payload : Json := Json.null
deriving DecidableEq

/-- The dict `asdict(self)` with `type` replaced by its string value — the
value `json.dumps` receives inside `Message.to_json`. -/
def Message.toJsonVal (m : Message) : Json :=
  .obj (.cons (pyStr "type") (.str m.type.value)
    (.cons (pyStr "sender_name") m.sender_name
      (.cons (pyStr "sender_ip") m.sender_ip
        (.cons (pyStr "payload") m.payload .nil))))

/-- `Message.to_json`: the serialized envelope text. -/
def Message.to_json (m : Message) : PyStr := serJson m.toJsonVal

/-- `Message.to_bytes`: UTF-8 encoding of the serialized text. -/
def Message.to_bytes (m : Message) : Option (List Nat) := utf8Enc m.to_json

/-- One failure class per Python exception raised inside decoding:
`UnicodeDecodeError`, `JSONDecodeError`, the `TypeError` of indexing a
non-dict, the `KeyError` for a missing `type`, the `ValueError` of the enum
constructor, and the `TypeError` of `Message(**data)` on unexpected or
missing keyword arguments. -/
inductive DecodeError where
  | notUtf8 | badJson | notDict | missingType | badTypeValue | badKwargs
deriving DecidableEq

/-- Every key of the object is an accepted keyword of `Message(**data)`. -/
def keysAllowed (o : JsonObj) : Bool :=
  o.keys.all (fun k =>
    k = pyStr "type" || k = pyStr "sender_name" || k = pyStr "sender_ip" || k = pyStr "payload")

instance {ε α : Type} [DecidableEq ε] [DecidableEq α] : DecidableEq (Except ε α) := fun x y =>
  match x, y with
  | .ok a, .ok b => if h : a = b then isTrue (by rw [h]) else isFalse (by simp [h])
  | .error a, .error b => if h : a = b then isTrue (by rw [h]) else isFalse (by simp [h])
  | .ok _, .error _ => isFalse (by simp)
  | .error _, .ok _ => isFalse (by simp)

/-- The envelope-level part of `Message.from_json`, in CPython's evaluation
order: `data['type']` (KeyError), `MessageType(...)` (ValueError), then
`Message(**data)` (TypeError on an unexpected keyword or a missing
`sender_name`/`sender_ip`; `payload` has a default and may be absent). -/
def fromJsonVal (j : Json) : Except DecodeError Message :=
  match j with
  | .obj o =>
    match o.find (pyStr "type") with
    | none => .error .missingType
    | some tv =>
      match messageTypeOf tv with
      | none => .error .badTypeValue
      | some t =>
        if keysAllowed o && o.hasKey (pyStr "sender_name") && o.hasKey (pyStr "sender_ip") then
          .ok ⟨t, (o.find (pyStr "sender_name")).getD .null,
            (o.find (pyStr "sender_ip")).getD .null,
            (o.find (pyStr "payload")).getD .null⟩
        else .error .badKwargs
  | _ => .error .notDict

/-- `Message.from_json`. -/
def Message.from_json (s : PyStr) : Except DecodeError Message :=
  match loads s with
  | none => .error .badJson
  | some j => fromJsonVal j

/-- `Message.from_bytes`: strict UTF-8 decoding followed by `from_json`. -/
def Message.from_bytes (bs : List Nat) : Except DecodeError Message :=
  match utf8Dec bs with
  | none => .error .notUtf8
  | some s => Message.from_json s

/-! ## Round-trip: `loads (dumps j) = j` for well-formed values. -/

theorem skipWs_cons_not {c : Nat} (r : PyStr) (h : isWs c = false) : skipWs (c :: r) = c :: r := by
  simp [skipWs, List.dropWhile_cons, h]

theorem skipWs_cons_ws {c : Nat} (r : PyStr) (h : isWs c = true) : skipWs (c :: r) = skipWs r := by
  simp [skipWs, List.dropWhile_cons, h]

theorem hexVal_hexDigit : ∀ d : Nat, d < 16 → hexVal (hexDigit d) = some d := by decide

theorem parseHex4_hex4 (n : Nat) (hn : n < 65536) (r : PyStr) :
    parseHex4 (hex4 n ++ r) = some (n, r) := by
  have h1 := hexVal_hexDigit (n / 4096 % 16) (Nat.mod_lt _ (by omega))
  have h2 := hexVal_hexDigit (n / 256 % 16) (Nat.mod_lt _ (by omega))
  have h3 := hexVal_hexDigit (n / 16 % 16) (Nat.mod_lt _ (by omega))
  have h4 := hexVal_hexDigit (n % 16) (Nat.mod_lt _ (by omega))
  simp only [hex4, List.cons_append, List.nil_append, parseHex4, h1, h2, h3, h4,
    Option.some.injEq, Prod.mk.injEq]
  exact ⟨by omega, trivial⟩

theorem parseStrBody_cons (f c : Nat) (r : PyStr) :
    parseStrBody (f + 1) (c :: r) =
      (if c = 34 then some ([], r)
      else if c = 92 then
        match r with
        | [] => none
        | e :: r2 =>
          if e = 34 then (parseStrBody f r2).map (fun p => (34 :: p.1, p.2))
          else if e = 92 then (parseStrBody f r2).map (fun p => (92 :: p.1, p.2))
          else if e = 47 then (parseStrBody f r2).map (fun p => (47 :: p.1, p.2))
          else if e = 98 then (parseStrBody f r2).map (fun p => (8 :: p.1, p.2))
          else if e = 102 then (parseStrBody f r2).map (fun p => (12 :: p.1, p.2))
          else if e = 110 then (parseStrBody f r2).map (fun p => (10 :: p.1, p.2))
          else if e = 114 then (parseStrBody f r2).map (fun p => (13 :: p.1, p.2))
          else if e = 116 then (parseStrBody f r2).map (fun p => (9 :: p.1, p.2))
          else if e = 117 then
            match parseHex4 r2 with
            | none => none
            | some (n, r3) =>
              if 55296 ≤ n ∧ n < 56320 then
                match r3 with
                | 92 :: 117 :: r4 =>
                  match parseHex4 r4 with
                  | none => none
                  | some (n2, r5) =>
                    if 56320 ≤ n2 ∧ n2 < 57344 then
                      (parseStrBody f r5).map
                        (fun p => ((65536 + (n - 55296) * 1024 + (n2 - 56320)) :: p.1, p.2))
                    else (parseStrBody f r3).map (fun p => (n :: p.1, p.2))
                | _ => (parseStrBody f r3).map (fun p => (n :: p.1, p.2))
              else (parseStrBody f r3).map (fun p => (n :: p.1, p.2))
          else none
      else if c < 32 then none
      else (parseStrBody f r).map (fun p => (c :: p.1, p.2))) := rfl

theorem parseStrBody_uescape (f : Nat) (r2 : PyStr) (n : Nat) (r3 : PyStr)
    (hp : parseHex4 r2 = some (n, r3)) (hns : ¬(55296 ≤ n ∧ n < 56320)) :
    parseStrBody (f + 1) (92 :: 117 :: r2) =
      (parseStrBody f r3).map (fun p => (n :: p.1, p.2)) := by
  rw [parseStrBody_cons]
  simp only [reduceIte, Nat.reduceEqDiff, hp]
  rw [if_neg hns]

theorem parseStrBody_upair (f : Nat) (r2 r4 r5 : PyStr) (n n2 : Nat)
    (hp : parseHex4 r2 = some (n, 92 :: 117 :: r4)) (hhiR : 55296 ≤ n ∧ n < 56320)
    (hp2 : parseHex4 r4 = some (n2, r5)) (hloR : 56320 ≤ n2 ∧ n2 < 57344) :
    parseStrBody (f + 1) (92 :: 117 :: r2) =
      (parseStrBody f r5).map
        (fun p => ((65536 + (n - 55296) * 1024 + (n2 - 56320)) :: p.1, p.2)) := by
  rw [parseStrBody_cons]
  simp only [reduceIte, Nat.reduceEqDiff, hp]
  rw [if_pos hhiR]
  simp only [List.cons.injEq, hp2]
  rw [if_pos hloR]

theorem parseStrBody_ser : ∀ (s : PyStr), s.all goodCp = true → ∀ (fuel : Nat) (r : PyStr),
    (s.flatMap escChar).length < fuel →
    parseStrBody fuel (s.flatMap escChar ++ 34 :: r) = some (s, r) := by
  intro s
  induction s with
  | nil =>
    intro _ fuel r hf
    obtain ⟨f, rfl⟩ : ∃ f, fuel = f + 1 := ⟨fuel - 1, by omega⟩
    simp [parseStrBody]
  | cons c cs ih =>
    intro hall fuel r hf
    rw [List.all_cons, Bool.and_eq_true] at hall
    obtain ⟨hc, hcs⟩ := hall
    have hclt : c < 1114112 := by
      simp only [goodCp, Bool.and_eq_true, decide_eq_true_eq] at hc; exact hc.1
    have hcsur : ¬(55296 ≤ c ∧ c < 57344) := by
      simp only [goodCp, Bool.and_eq_true, Bool.not_eq_true', Bool.and_eq_false_iff,
        decide_eq_true_eq, decide_eq_false_iff_not] at hc
      rcases hc.2 with h | h
      · omega
      · omega
    rw [List.flatMap_cons] at hf ⊢
    obtain ⟨f, rfl⟩ : ∃ f, fuel = f + 1 := ⟨fuel - 1, by omega⟩
    by_cases h34 : c = 34
    · subst h34
      rw [show escChar 34 = [92, 34] from rfl] at hf ⊢
      simp only [List.cons_append, List.nil_append, List.length_cons] at hf ⊢
      rw [parseStrBody_cons]
      simp only [reduceIte, Nat.reduceEqDiff]
      rw [ih hcs f r (by simp at hf ⊢; omega)]
      rfl
    · by_cases h92 : c = 92
      · subst h92
        rw [show escChar 92 = [92, 92] from rfl] at hf ⊢
        simp only [List.cons_append, List.nil_append, List.length_cons] at hf ⊢
        rw [parseStrBody_cons]
        simp only [reduceIte, Nat.reduceEqDiff]
        rw [ih hcs f r (by simp at hf ⊢; omega)]
        rfl
      · by_cases h8 : c = 8
        · subst h8
          rw [show escChar 8 = [92, 98] from rfl] at hf ⊢
          simp only [List.cons_append, List.nil_append, List.length_cons] at hf ⊢
          rw [parseStrBody_cons]
          simp only [reduceIte, Nat.reduceEqDiff]
          rw [ih hcs f r (by simp at hf ⊢; omega)]
          rfl
        · by_cases h9 : c = 9
          · subst h9
            rw [show escChar 9 = [92, 116] from rfl] at hf ⊢
            simp only [List.cons_append, List.nil_append, List.length_cons] at hf ⊢
            rw [parseStrBody_cons]
            simp only [reduceIte, Nat.reduceEqDiff]
            rw [ih hcs f r (by simp at hf ⊢; omega)]
            rfl
          · by_cases h10 : c = 10
            · subst h10
              rw [show escChar 10 = [92, 110] from rfl] at hf ⊢
              simp only [List.cons_append, List.nil_append, List.length_cons] at hf ⊢
              rw [parseStrBody_cons]
              simp only [reduceIte, Nat.reduceEqDiff]
              rw [ih hcs f r (by simp at hf ⊢; omega)]
              rfl
            · by_cases h12 : c = 12
              · subst h12
                rw [show escChar 12 = [92, 102] from rfl] at hf ⊢
                simp only [List.cons_append, List.nil_append, List.length_cons] at hf ⊢
                rw [parseStrBody_cons]
                simp only [reduceIte, Nat.reduceEqDiff]
                rw [ih hcs f r (by simp at hf ⊢; omega)]
                rfl
              · by_cases h13 : c = 13
                · subst h13
                  rw [show escChar 13 = [92, 114] from rfl] at hf ⊢
                  simp only [List.cons_append, List.nil_append, List.length_cons] at hf ⊢
                  rw [parseStrBody_cons]
                  simp only [reduceIte, Nat.reduceEqDiff]
                  rw [ih hcs f r (by simp at hf ⊢; omega)]
                  rfl
                · by_cases hpr : 32 ≤ c ∧ c ≤ 126
                  · have hesc : escChar c = [c] := by
                      unfold escChar
                      rw [if_neg h34, if_neg h92, if_neg h8, if_neg h9, if_neg h10,
                        if_neg h12, if_neg h13, if_pos hpr]
                    rw [hesc] at hf ⊢
                    simp only [List.cons_append, List.nil_append, List.length_cons] at hf ⊢
                    rw [parseStrBody_cons]
                    rw [if_neg h34, if_neg h92, if_neg (by omega : ¬c < 32)]
                    rw [ih hcs f r (by omega)]
                    rfl
                  · by_cases hbmp : c < 65536
                    · have hesc : escChar c = 92 :: 117 :: hex4 c := by
                        unfold escChar
                        rw [if_neg h34, if_neg h92, if_neg h8, if_neg h9, if_neg h10,
                          if_neg h12, if_neg h13, if_neg hpr, if_pos hbmp]
                      have hflen : (cs.flatMap escChar).length < f := by
                        rw [hesc] at hf
                        have h4 : (hex4 c).length = 4 := rfl
                        simp only [List.length_append, List.length_cons, h4] at hf
                        omega
                      rw [hesc]
                      simp only [List.cons_append, List.append_assoc]
                      rw [parseStrBody_uescape f _ c _
                        (parseHex4_hex4 c hbmp (cs.flatMap escChar ++ 34 :: r))
                        (by omega)]
                      rw [ih hcs f r hflen]
                      rfl
                    · have hesc : escChar c =
                          (92 :: 117 :: hex4 (55296 + (c - 65536) / 1024)) ++
                            (92 :: 117 :: hex4 (56320 + (c - 65536) % 1024)) := by
                        unfold escChar
                        rw [if_neg h34, if_neg h92, if_neg h8, if_neg h9, if_neg h10,
                          if_neg h12, if_neg h13, if_neg hpr, if_neg hbmp]
                      have hhi : 55296 + (c - 65536) / 1024 < 65536 := by omega
                      have hlo : 56320 + (c - 65536) % 1024 < 65536 := by omega
                      have hflen : (cs.flatMap escChar).length < f := by
                        rw [hesc] at hf
                        have h4a : (hex4 (55296 + (c - 65536) / 1024)).length = 4 := rfl
                        have h4b : (hex4 (56320 + (c - 65536) % 1024)).length = 4 := rfl
                        simp only [List.length_append, List.length_cons, h4a, h4b] at hf
                        omega
                      rw [hesc]
                      simp only [List.cons_append, List.append_assoc]
                      rw [parseStrBody_upair f _ _ _ _ _
                        (parseHex4_hex4 _ hhi
                          (92 :: 117 :: (hex4 (56320 + (c - 65536) % 1024) ++
                            (cs.flatMap escChar ++ 34 :: r))))
                        (by omega)
                        (parseHex4_hex4 _ hlo (cs.flatMap escChar ++ 34 :: r))
                        (by omega)]
                      rw [ih hcs f r hflen]
                      simp only [Option.map_some', Option.some.injEq, Prod.mk.injEq,
                        List.cons.injEq, and_true]
                      omega

theorem natDigitsRev_zero : ∀ f, natDigitsRev f 0 = [] := by
  intro f; cases f <;> simp [natDigitsRev]

theorem natDigitsRev_ne_nil {f n : Nat} (h1 : 0 < n) (h2 : n ≤ f) : natDigitsRev f n ≠ [] := by
  cases f with
  | zero => omega
  | succ f => simp only [natDigitsRev, if_neg (by omega : ¬n = 0)]; simp

theorem natDigitsRev_lt10 : ∀ (f : Nat) {n d : Nat}, d ∈ natDigitsRev f n → d < 10 := by
  intro f
  induction f with
  | zero => intro n d h; simp [natDigitsRev] at h
  | succ f ih =>
    intro n d h
    by_cases hn : n = 0
    · simp [natDigitsRev, hn] at h
    · simp only [natDigitsRev, if_neg hn, List.mem_cons] at h
      rcases h with h | h
      · omega
      · exact ih h

theorem natDigitsRev_getLast : ∀ (f : Nat) {n : Nat}, 0 < n → n ≤ f →
    (natDigitsRev f n).getLast? ≠ some 0 := by
  intro f
  induction f with
  | zero => intro n h1 h2; omega
  | succ f ih =>
    intro n h1 h2
    simp only [natDigitsRev, if_neg (by omega : ¬n = 0)]
    by_cases hq : n / 10 = 0
    · rw [hq, natDigitsRev_zero]
      simp only [List.getLast?_singleton, ne_eq, Option.some.injEq]
      omega
    · have hL := natDigitsRev_ne_nil (n := n / 10) (f := f) (by omega) (by omega)
      obtain ⟨y, L', hy⟩ := List.exists_cons_of_ne_nil hL
      rw [hy, List.getLast?_cons_cons, ← hy]
      exact ih (by omega) (by omega)

theorem natDigitsRev_foldl : ∀ (f : Nat) {n : Nat} (acc : Nat), n ≤ f →
    List.foldl (fun a c => a * 10 + (c - 48)) acc ((natDigitsRev f n).reverse.map (· + 48)) =
      acc * 10 ^ (natDigitsRev f n).length + n := by
  intro f
  induction f with
  | zero =>
    intro n acc h
    have : n = 0 := by omega
    subst this
    simp [natDigitsRev]
  | succ f ih =>
    intro n acc h
    by_cases hn : n = 0
    · subst hn; simp [natDigitsRev]
    · simp only [natDigitsRev, if_neg hn, List.reverse_cons, List.map_append,
        List.foldl_append, List.length_cons]
      rw [ih acc (by omega : n / 10 ≤ f)]
      simp only [List.map_cons, List.map_nil, List.foldl_cons, List.foldl_nil]
      have h48 : n % 10 + 48 - 48 = n % 10 := by omega
      rw [h48, pow_succ]
      have hdm : n / 10 * 10 + n % 10 = n := by omega
      rw [← mul_assoc]
      set X := acc * 10 ^ (natDigitsRev f (n / 10)).length with hX
      omega

theorem serNat_all_digits {n : Nat} : ∀ d ∈ serNat n, isDigit d = true := by
  intro d hd
  unfold serNat at hd
  split at hd
  · simp at hd; simp [isDigit, hd]
  · simp only [List.mem_map, List.mem_reverse] at hd
    obtain ⟨e, he, rfl⟩ := hd
    have := natDigitsRev_lt10 n he
    simp [isDigit]; omega

theorem digitsVal_serNat (n : Nat) : digitsVal (serNat n) = n := by
  unfold serNat digitsVal
  split
  · simp_all
  · rw [natDigitsRev_foldl n 0 (le_refl n)]
    simp

theorem serNat_ne_nil (n : Nat) : serNat n ≠ [] := by
  unfold serNat
  split
  · simp
  · simp only [ne_eq, List.map_eq_nil_iff, List.reverse_eq_nil_iff]
    exact natDigitsRev_ne_nil (by omega) (le_refl n)

theorem serNat_no_leading_zero (n : Nat) :
    ¬(1 < (serNat n).length ∧ (serNat n).head? = some 48) := by
  unfold serNat
  split
  · simp
  · rintro ⟨-, hhd⟩
    rw [List.head?_map, List.head?_reverse] at hhd
    have := natDigitsRev_getLast n (by omega) (le_refl n)
    match hlast : (natDigitsRev n n).getLast? with
    | none => rw [hlast] at hhd; simp at hhd
    | some d =>
      rw [hlast] at hhd this
      simp only [Option.map_some', Option.some.injEq] at hhd
      exact this (by rw [show d = 0 by omega])

theorem takeWhile_all_append {p : Nat → Bool} : ∀ (A r : PyStr), (∀ a ∈ A, p a = true) →
    (∀ c rest, r = c :: rest → p c = false) →
    (A ++ r).takeWhile p = A ∧ (A ++ r).dropWhile p = r := by
  intro A
  induction A with
  | nil =>
    intro r _ hr
    match r with
    | [] => simp
    | c :: rest => simp [List.takeWhile_cons, List.dropWhile_cons, hr c rest rfl]
  | cons a A ih =>
    intro r hA hr
    have ha : p a = true := hA a (by simp)
    simp only [List.cons_append, List.takeWhile_cons, List.dropWhile_cons, ha]
    have := ih r (fun x hx => hA x (by simp [hx])) hr
    simp [this.1, this.2]

/-- After a serialized value the input continues with a list delimiter,
an object close, or nothing — never a character that could extend a numeric
literal. -/
def isDelim : PyStr → Bool
  | [] => true
  | c :: _ => c = 44 || c = 93 || c = 125

theorem parseNumber_ser (n : Int) (r : PyStr) (hr : isDelim r = true) :
    parseNumber (serInt n ++ r) = some (.int n, r) := by
  have hrd : ∀ c rest, r = c :: rest → isDigit c = false := by
    intro c rest hc
    rw [hc] at hr
    simp only [isDelim, Bool.or_eq_true, decide_eq_true_eq] at hr
    simp [isDigit]; omega
  have hrf : ∀ ds, nextIsFloat (List.dropWhile isDigit (ds ++ r)) = false → True := fun _ _ => trivial
  have hfloat : nextIsFloat r = false := by
    match r with
    | [] => rfl
    | c :: rest =>
      simp only [isDelim, Bool.or_eq_true, decide_eq_true_eq] at hr
      simp [nextIsFloat]; omega
  cases n with
  | ofNat m =>
    obtain ⟨d, ds, hser⟩ : ∃ d ds, serNat m = d :: ds := by
      match hm : serNat m with
      | [] => exact absurd hm (serNat_ne_nil m)
      | d :: ds => exact ⟨d, ds, rfl⟩
    have hd : isDigit d = true := serNat_all_digits d (by rw [hser]; simp)
    show parseNumber (serNat m ++ r) = _
    rw [hser, List.cons_append, parseNumber]
    rw [if_neg (by simp [isDigit] at hd; omega : ¬d = 45)]
    rw [← List.cons_append, ← hser]
    unfold parseNumBody
    obtain ⟨htw, hdw⟩ := takeWhile_all_append (serNat m) r serNat_all_digits hrd
    rw [htw, hdw]
    rw [if_neg (by simp [serNat_ne_nil m] : ¬serNat m = [])]
    rw [if_neg (serNat_no_leading_zero m), if_neg (by simp [hfloat] : ¬nextIsFloat r = true)]
    simp [digitsVal_serNat]
  | negSucc k =>
    show parseNumber (45 :: serNat (k + 1) ++ r) = _
    rw [List.cons_append, parseNumber, if_pos rfl]
    unfold parseNumBody
    obtain ⟨htw, hdw⟩ := takeWhile_all_append (serNat (k + 1)) r serNat_all_digits hrd
    rw [htw, hdw]
    rw [if_neg (by simp [serNat_ne_nil (k + 1)] : ¬serNat (k + 1) = [])]
    rw [if_neg (serNat_no_leading_zero (k + 1)),
      if_neg (by simp [hfloat] : ¬nextIsFloat r = true)]
    simp only [digitsVal_serNat, if_true, Option.some.injEq, Prod.mk.injEq,
      Json.int.injEq, and_true]
    rw [Int.negSucc_eq, Int.ofNat_eq_natCast]
    push_cast
    ring

mutual

/-- Structural size of a JSON value, used as a fuel bound for the parser. -/
def sizeJ : Json → Nat
  | .null => 1
  | .bool _ => 1
  | .int _ => 1
  | .str _ => 1
  | .arr a => 1 + sizeA a
  | .obj o => 1 + sizeO o

/-- Structural size of an array body. -/
def sizeA : JsonArr → Nat
  | .nil => 0
  | .cons h t => 1 + sizeJ h + sizeA t

/-- Structural size of an object body. -/
def sizeO : JsonObj → Nat
  | .nil => 0
  | .cons _ v t => 1 + sizeJ v + sizeO t

end

/-- Concatenation of two objects. -/
def JsonObj.cat : JsonObj → JsonObj → JsonObj
  | .nil, o => o
  | .cons k v t, o => .cons k v (t.cat o)

/-- Fold dict assignments of all members of the second object into the
first — what `json.loads` effectively does while building an object. -/
def extendObj (acc : JsonObj) : JsonObj → JsonObj
  | .nil => acc
  | .cons k v t => extendObj (acc.setKey k v) t

theorem cat_nil : ∀ o : JsonObj, o.cat .nil = o
  | .nil => rfl
  | .cons k v t => by simp [JsonObj.cat, cat_nil t]

theorem cat_assoc : ∀ a b c : JsonObj, (a.cat b).cat c = a.cat (b.cat c)
  | .nil, _, _ => rfl
  | .cons k v t, b, c => by simp [JsonObj.cat, cat_assoc t b c]

theorem hasKey_setKey : ∀ (a : JsonObj) (k k' : PyStr) (v : Json),
    (a.setKey k v).hasKey k' = (a.hasKey k' || decide (k = k'))
  | .nil, k, k', v => by
    by_cases h : k = k' <;>
      simp [JsonObj.setKey, JsonObj.hasKey, JsonObj.find, h]
  | .cons k0 v0 t, k, k', v => by
    have ih := hasKey_setKey t k k' v
    by_cases h0 : k0 = k
    · subst h0
      by_cases h1 : k0 = k' <;>
        simp [JsonObj.setKey, JsonObj.hasKey, JsonObj.find, h1]
    · by_cases h1 : k0 = k'
      · subst h1
        simp [JsonObj.setKey, JsonObj.hasKey, JsonObj.find, h0]
      · simp only [JsonObj.setKey, if_neg h0, JsonObj.hasKey, JsonObj.find, if_neg h1]
        simpa [JsonObj.hasKey] using ih

theorem setKey_not_mem : ∀ (a : JsonObj) (k : PyStr) (v : Json),
    a.hasKey k = false → a.setKey k v = a.cat (.cons k v .nil)
  | .nil, k, v, _ => rfl
  | .cons k0 v0 t, k, v, h => by
    simp only [JsonObj.hasKey, JsonObj.find] at h
    by_cases h0 : k0 = k
    · rw [if_pos h0] at h; simp at h
    · rw [if_neg h0] at h
      simp only [JsonObj.setKey, if_neg h0, JsonObj.cat, JsonObj.cons.injEq, true_and]
      exact setKey_not_mem t k v h

theorem extendObj_cat : ∀ (o acc : JsonObj), (∀ k ∈ o.keys, acc.hasKey k = false) →
    o.keys.Nodup → extendObj acc o = acc.cat o
  | .nil, acc, _, _ => by simp [extendObj, cat_nil]
  | .cons k v t, acc, hdisj, hnd => by
    simp only [JsonObj.keys, List.nodup_cons] at hnd
    have hk : acc.hasKey k = false := hdisj k (by simp [JsonObj.keys])
    show extendObj (acc.setKey k v) t = acc.cat (.cons k v t)
    rw [extendObj_cat t (acc.setKey k v) ?_ hnd.2]
    · rw [setKey_not_mem acc k v hk, cat_assoc]
      rfl
    · intro k' hk'
      rw [hasKey_setKey]
      have : ¬k = k' := fun he => hnd.1 (he ▸ hk')
      simp [hdisj k' (by simp [JsonObj.keys, hk']), this]

theorem extendObj_nil (o : JsonObj) (hnd : o.keys.Nodup) : extendObj .nil o = o := by
  rw [extendObj_cat o .nil (fun k _ => rfl) hnd]
  rfl

theorem serNat_head (n : Nat) : ∃ d ds, serNat n = d :: ds ∧ 48 ≤ d ∧ d ≤ 57 := by
  obtain ⟨d, ds, hser⟩ : ∃ d ds, serNat n = d :: ds := by
    match hm : serNat n with
    | [] => exact absurd hm (serNat_ne_nil n)
    | d :: ds => exact ⟨d, ds, rfl⟩
  have hd := serNat_all_digits (n := n) d (by rw [hser]; simp)
  simp only [isDigit, Bool.and_eq_true, decide_eq_true_eq] at hd
  exact ⟨d, ds, hser, hd.1, hd.2⟩

theorem serJson_head (j : Json) : ∃ c cs, serJson j = c :: cs ∧
    (c = 110 ∨ c = 116 ∨ c = 102 ∨ c = 34 ∨ c = 91 ∨ c = 123 ∨ c = 45 ∨ (48 ≤ c ∧ c ≤ 57)) := by
  match j with
  | .null => exact ⟨110, _, rfl, by omega⟩
  | .bool true => exact ⟨116, _, rfl, by omega⟩
  | .bool false => exact ⟨102, _, rfl, by omega⟩
  | .int (.ofNat m) =>
    obtain ⟨d, ds, hser, h1, h2⟩ := serNat_head m
    exact ⟨d, ds, hser, by omega⟩
  | .int (.negSucc k) => exact ⟨45, _, rfl, by omega⟩
  | .str s => exact ⟨34, _, rfl, by omega⟩
  | .arr a => exact ⟨91, _, rfl, by omega⟩
  | .obj o => exact ⟨123, _, rfl, by omega⟩

theorem skipWs_serJson (j : Json) (x : PyStr) :
    skipWs (serJson j ++ x) = serJson j ++ x := by
  obtain ⟨c, cs, hser, hc⟩ := serJson_head j
  rw [hser, List.cons_append]
  exact skipWs_cons_not _ (by simp [isWs]; omega)

theorem parseVal_cons (f c : Nat) (r : PyStr) :
    parseVal (f + 1) (c :: r) =
      (if c = 34 then (parseStrBody (r.length + 1) r).map (fun p => (Json.str p.1, p.2))
      else if c = 123 then
        match skipWs r with
        | 125 :: r2 => some (.obj .nil, r2)
        | r' => (parseMembers f r' .nil).map (fun p => (.obj p.1, p.2))
      else if c = 91 then
        match skipWs r with
        | 93 :: r2 => some (.arr .nil, r2)
        | r' => (parseElems f r').map (fun p => (.arr p.1, p.2))
      else if c = 110 then
        match r with
        | 117 :: 108 :: 108 :: rest => some (.null, rest)
        | _ => none
      else if c = 116 then
        match r with
        | 114 :: 117 :: 101 :: rest => some (.bool true, rest)
        | _ => none
      else if c = 102 then
        match r with
        | 97 :: 108 :: 115 :: 101 :: rest => some (.bool false, rest)
        | _ => none
      else parseNumber (c :: r)) := rfl

theorem parseElems_succ (f : Nat) (s : PyStr) :
    parseElems (f + 1) s =
      (match parseVal f s with
      | none => none
      | some (v, r) =>
        match skipWs r with
        | 44 :: r2 => (parseElems f (skipWs r2)).map (fun p => (.cons v p.1, p.2))
        | 93 :: r2 => some (.cons v .nil, r2)
        | _ => none) := rfl

theorem parseMembers_succ (f : Nat) (s : PyStr) (acc : JsonObj) :
    parseMembers (f + 1) s acc =
      (match s with
      | 34 :: r =>
        match parseStrBody (r.length + 1) r with
        | none => none
        | some (k, r2) =>
          match skipWs r2 with
          | 58 :: r3 =>
            match parseVal f (skipWs r3) with
            | none => none
            | some (v, r4) =>
              match skipWs r4 with
              | 44 :: r5 => parseMembers f (skipWs r5) (acc.setKey k v)
              | 125 :: r5 => some (acc.setKey k v, r5)
              | _ => none
          | _ => none
      | _ => none) := rfl

theorem serArr_cons_head (h : Json) (t : JsonArr) : ∃ c cs, serArr (.cons h t) = c :: cs ∧
    (c = 110 ∨ c = 116 ∨ c = 102 ∨ c = 34 ∨ c = 91 ∨ c = 123 ∨ c = 45 ∨ (48 ≤ c ∧ c ≤ 57)) := by
  obtain ⟨c, cs, hser, hc⟩ := serJson_head h
  match t with
  | .nil => exact ⟨c, cs, hser, hc⟩
  | .cons h' t' =>
    refine ⟨c, cs ++ [44, 32] ++ serArr (.cons h' t'), ?_, hc⟩
    show serJson h ++ [44, 32] ++ serArr (.cons h' t') = _
    rw [hser]
    simp

theorem serObj_cons_head (k : PyStr) (v : Json) (t : JsonObj) :
    ∃ cs, serObj (.cons k v t) = 34 :: cs := by
  match t with
  | .nil =>
    refine ⟨k.flatMap escChar ++ [34] ++ ([58, 32] ++ serJson v), ?_⟩
    show serStr k ++ [58, 32] ++ serJson v = _
    simp [serStr]
  | .cons k' v' t' =>
    refine ⟨k.flatMap escChar ++ [34] ++ ([58, 32] ++ serJson v ++ [44, 32] ++ serObj (.cons k' v' t')), ?_⟩
    show serStr k ++ [58, 32] ++ serJson v ++ [44, 32] ++ serObj (.cons k' v' t') = _
    simp [serStr]

mutual

theorem parseVal_ser : ∀ (j : Json), wfJson j = true → ∀ (f : Nat), sizeJ j < f →
    ∀ (r : PyStr), isDelim r = true → parseVal f (serJson j ++ r) = some (j, r)
  | .null, _, f, hf, r, _ => by
    obtain ⟨f', rfl⟩ : ∃ f', f = f' + 1 := ⟨f - 1, by simp [sizeJ] at hf; omega⟩
    show parseVal (f' + 1) (110 :: 117 :: 108 :: 108 :: r) = some (.null, r)
    rw [parseVal_cons]
    simp
  | .bool true, _, f, hf, r, _ => by
    obtain ⟨f', rfl⟩ : ∃ f', f = f' + 1 := ⟨f - 1, by simp [sizeJ] at hf; omega⟩
    show parseVal (f' + 1) (116 :: 114 :: 117 :: 101 :: r) = some (.bool true, r)
    rw [parseVal_cons]
    simp
  | .bool false, _, f, hf, r, _ => by
    obtain ⟨f', rfl⟩ : ∃ f', f = f' + 1 := ⟨f - 1, by simp [sizeJ] at hf; omega⟩
    show parseVal (f' + 1) (102 :: 97 :: 108 :: 115 :: 101 :: r) = some (.bool false, r)
    rw [parseVal_cons]
    simp
  | .int (.ofNat m), _, f, hf, r, hr => by
    obtain ⟨f', rfl⟩ : ∃ f', f = f' + 1 := ⟨f - 1, by simp [sizeJ] at hf; omega⟩
    obtain ⟨d, ds, hser, hd1, hd2⟩ := serNat_head m
    show parseVal (f' + 1) (serNat m ++ r) = some (.int (.ofNat m), r)
    rw [hser, List.cons_append, parseVal_cons]
    rw [if_neg (by omega), if_neg (by omega), if_neg (by omega), if_neg (by omega),
      if_neg (by omega), if_neg (by omega)]
    rw [← List.cons_append, ← hser]
    exact parseNumber_ser (.ofNat m) r hr
  | .int (.negSucc k), _, f, hf, r, hr => by
    obtain ⟨f', rfl⟩ : ∃ f', f = f' + 1 := ⟨f - 1, by simp [sizeJ] at hf; omega⟩
    show parseVal (f' + 1) (45 :: (serNat (k + 1) ++ r)) = some (.int (.negSucc k), r)
    rw [parseVal_cons]
    simp only [reduceIte, Nat.reduceEqDiff]
    exact parseNumber_ser (.negSucc k) r hr
  | .str s, hw, f, hf, r, _ => by
    obtain ⟨f', rfl⟩ : ∃ f', f = f' + 1 := ⟨f - 1, by simp [sizeJ] at hf; omega⟩
    have he : serJson (.str s) ++ r = 34 :: (s.flatMap escChar ++ 34 :: r) := by
      show serStr s ++ r = _
      simp [serStr]
    rw [he, parseVal_cons]
    simp only [reduceIte]
    rw [parseStrBody_ser s hw _ r (by simp [List.length_append]; omega)]
    rfl
  | .arr .nil, _, f, hf, r, _ => by
    obtain ⟨f', rfl⟩ : ∃ f', f = f' + 1 := ⟨f - 1, by simp [sizeJ] at hf; omega⟩
    show parseVal (f' + 1) (91 :: 93 :: r) = some (.arr .nil, r)
    rw [parseVal_cons]
    simp only [reduceIte, Nat.reduceEqDiff]
    rw [skipWs_cons_not r (by simp [isWs])]
  | .arr (.cons h t), hw, f, hf, r, _ => by
    obtain ⟨f', rfl⟩ : ∃ f', f = f' + 1 := ⟨f - 1, by simp [sizeJ] at hf; omega⟩
    have he : serJson (.arr (.cons h t)) ++ r = 91 :: (serArr (.cons h t) ++ 93 :: r) := by
      show 91 :: serArr (.cons h t) ++ [93] ++ r = _
      simp
    rw [he, parseVal_cons]
    simp only [reduceIte, Nat.reduceEqDiff]
    obtain ⟨c, cs, hser, hc⟩ := serArr_cons_head h t
    have hsw : skipWs (serArr (.cons h t) ++ 93 :: r) = serArr (.cons h t) ++ 93 :: r := by
      rw [hser, List.cons_append]
      exact skipWs_cons_not _ (by simp [isWs]; omega)
    rw [hsw]
    split
    · next r2 heq =>
      rw [hser, List.cons_append] at heq
      exact absurd (List.cons.injEq _ _ _ _ ▸ heq) (by simp; intro h1; omega)
    · next =>
      rw [parseElems_ser h t hw f' (by simp [sizeJ] at hf; omega) r]
      rfl
  | .obj .nil, _, f, hf, r, _ => by
    obtain ⟨f', rfl⟩ : ∃ f', f = f' + 1 := ⟨f - 1, by simp [sizeJ] at hf; omega⟩
    show parseVal (f' + 1) (123 :: 125 :: r) = some (.obj .nil, r)
    rw [parseVal_cons]
    simp only [reduceIte, Nat.reduceEqDiff]
    rw [skipWs_cons_not r (by simp [isWs])]
  | .obj (.cons k v t), hw, f, hf, r, _ => by
    obtain ⟨f', rfl⟩ : ∃ f', f = f' + 1 := ⟨f - 1, by simp [sizeJ] at hf; omega⟩
    have hw' : wfObj (.cons k v t) = true ∧ wfKeys (JsonObj.keys (.cons k v t)) = true ∧
        (JsonObj.keys (.cons k v t)).Nodup := by
      simp only [wfJson, Bool.and_eq_true, decide_eq_true_eq] at hw
      exact ⟨hw.1.1, hw.1.2, hw.2⟩
    have he : serJson (.obj (.cons k v t)) ++ r = 123 :: (serObj (.cons k v t) ++ 125 :: r) := by
      show 123 :: serObj (.cons k v t) ++ [125] ++ r = _
      simp
    rw [he, parseVal_cons]
    simp only [reduceIte, Nat.reduceEqDiff]
    obtain ⟨cs, hser⟩ := serObj_cons_head k v t
    have hsw : skipWs (serObj (.cons k v t) ++ 125 :: r) = serObj (.cons k v t) ++ 125 :: r := by
      rw [hser, List.cons_append]
      exact skipWs_cons_not _ (by simp [isWs])
    rw [hsw]
    split
    · next r2 heq =>
      rw [hser, List.cons_append] at heq
      exact absurd (List.cons.injEq _ _ _ _ ▸ heq) (by simp)
    · next =>
      rw [parseMembers_ser k v t hw'.1 hw'.2.1 f' (by simp [sizeJ] at hf; omega) r .nil]
      rw [extendObj_nil _ hw'.2.2]
      rfl
  termination_by j _ _ _ _ _ => sizeJ j
  decreasing_by all_goals (simp only [sizeJ, sizeA, sizeO]; omega)

theorem parseElems_ser : ∀ (h : Json) (t : JsonArr), wfArr (.cons h t) = true →
    ∀ (f : Nat), sizeA (.cons h t) < f → ∀ (r : PyStr),
    parseElems f (serArr (.cons h t) ++ 93 :: r) = some (.cons h t, r)
  | h, .nil, hw, f, hf, r => by
    obtain ⟨f', rfl⟩ : ∃ f', f = f' + 1 := ⟨f - 1, by simp [sizeA] at hf; omega⟩
    have hw1 : wfJson h = true := by
      simp only [wfArr, Bool.and_eq_true] at hw; exact hw.1
    show parseElems (f' + 1) (serJson h ++ 93 :: r) = some (.cons h .nil, r)
    rw [parseElems_succ]
    rw [parseVal_ser h hw1 f' (by simp [sizeA, sizeJ] at hf ⊢; omega) (93 :: r)
      (by simp [isDelim])]
    dsimp only
    rw [skipWs_cons_not r (by simp [isWs])]
  | h, .cons h' t', hw, f, hf, r => by
    obtain ⟨f', rfl⟩ : ∃ f', f = f' + 1 := ⟨f - 1, by simp [sizeA] at hf; omega⟩
    have hw1 : wfJson h = true := by
      simp only [wfArr, Bool.and_eq_true] at hw; exact hw.1
    have hw2 : wfArr (.cons h' t') = true := by
      simp only [wfArr, Bool.and_eq_true] at hw ⊢
      exact ⟨hw.2.1, hw.2.2⟩
    have he : serArr (.cons h (.cons h' t')) ++ 93 :: r =
        serJson h ++ (44 :: 32 :: (serArr (.cons h' t') ++ 93 :: r)) := by
      show serJson h ++ [44, 32] ++ serArr (.cons h' t') ++ 93 :: r = _
      simp
    rw [he, parseElems_succ]
    rw [parseVal_ser h hw1 f' (by simp [sizeA] at hf ⊢; omega) _ (by simp [isDelim])]
    dsimp only
    rw [skipWs_cons_not _ (by simp [isWs])]
    dsimp only
    rw [skipWs_cons_ws _ (by simp [isWs])]
    obtain ⟨c, cs, hser, hc⟩ := serArr_cons_head h' t'
    rw [show skipWs (serArr (.cons h' t') ++ 93 :: r) = serArr (.cons h' t') ++ 93 :: r by
      rw [hser, List.cons_append]; exact skipWs_cons_not _ (by simp [isWs]; omega)]
    rw [parseElems_ser h' t' hw2 f' (by simp [sizeA] at hf ⊢; omega) r]
    rfl
  termination_by h t _ _ _ _ => sizeA (.cons h t)
  decreasing_by all_goals (simp only [sizeJ, sizeA, sizeO]; omega)

theorem parseMembers_ser : ∀ (k : PyStr) (v : Json) (t : JsonObj),
    wfObj (.cons k v t) = true → wfKeys (JsonObj.keys (.cons k v t)) = true →
    ∀ (f : Nat), sizeO (.cons k v t) < f → ∀ (r : PyStr) (acc : JsonObj),
    parseMembers f (serObj (.cons k v t) ++ 125 :: r) acc =
      some (extendObj acc (.cons k v t), r)
  | k, v, .nil, hwv, hwk, f, hf, r, acc => by
    obtain ⟨f', rfl⟩ : ∃ f', f = f' + 1 := ⟨f - 1, by simp [sizeO] at hf; omega⟩
    have hv : wfJson v = true := by
      simp only [wfObj, Bool.and_eq_true] at hwv; exact hwv.1
    have hk : k.all goodCp = true := by
      simp only [JsonObj.keys, wfKeys, Bool.and_eq_true] at hwk; exact hwk.1
    have he : serObj (.cons k v .nil) ++ 125 :: r =
        34 :: (k.flatMap escChar ++ 34 :: (58 :: 32 :: (serJson v ++ 125 :: r))) := by
      show serStr k ++ [58, 32] ++ serJson v ++ 125 :: r = _
      simp [serStr]
    rw [he, parseMembers_succ]
    dsimp only
    rw [parseStrBody_ser k hk _ _ (by simp [List.length_append]; omega)]
    dsimp only
    rw [skipWs_cons_not _ (by simp [isWs])]
    dsimp only
    rw [skipWs_cons_ws _ (by simp [isWs]), skipWs_serJson]
    rw [parseVal_ser v hv f' (by simp [sizeO, sizeJ] at hf ⊢; omega) _ (by simp [isDelim])]
    dsimp only
    rw [skipWs_cons_not _ (by simp [isWs])]
    rfl
  | k, v, .cons k' v' t', hwv, hwk, f, hf, r, acc => by
    obtain ⟨f', rfl⟩ : ∃ f', f = f' + 1 := ⟨f - 1, by simp [sizeO] at hf; omega⟩
    have hv : wfJson v = true := by
      simp only [wfObj, Bool.and_eq_true] at hwv; exact hwv.1
    have hwv' : wfObj (.cons k' v' t') = true := by
      simp only [wfObj, Bool.and_eq_true] at hwv ⊢
      exact ⟨hwv.2.1, hwv.2.2⟩
    have hk : k.all goodCp = true := by
      simp only [JsonObj.keys, wfKeys, Bool.and_eq_true] at hwk; exact hwk.1
    have hwk' : wfKeys (JsonObj.keys (.cons k' v' t')) = true := by
      simp only [JsonObj.keys, wfKeys, Bool.and_eq_true] at hwk ⊢
      exact ⟨hwk.2.1, hwk.2.2⟩
    have he : serObj (.cons k v (.cons k' v' t')) ++ 125 :: r =
        34 :: (k.flatMap escChar ++ 34 :: (58 :: 32 :: (serJson v ++
          44 :: 32 :: (serObj (.cons k' v' t') ++ 125 :: r)))) := by
      show serStr k ++ [58, 32] ++ serJson v ++ [44, 32] ++ serObj (.cons k' v' t') ++
        125 :: r = _
      simp [serStr]
    rw [he, parseMembers_succ]
    dsimp only
    rw [parseStrBody_ser k hk _ _ (by simp [List.length_append]; omega)]
    dsimp only
    rw [skipWs_cons_not _ (by simp [isWs])]
    dsimp only
    rw [skipWs_cons_ws _ (by simp [isWs]), skipWs_serJson]
    rw [parseVal_ser v hv f' (by simp [sizeO, sizeJ] at hf ⊢; omega) _ (by simp [isDelim])]
    dsimp only
    rw [skipWs_cons_not _ (by simp [isWs])]
    dsimp only
    rw [skipWs_cons_ws _ (by simp [isWs])]
    obtain ⟨cs, hser⟩ := serObj_cons_head k' v' t'
    rw [show skipWs (serObj (.cons k' v' t') ++ 125 :: r) =
        serObj (.cons k' v' t') ++ 125 :: r by
      rw [hser, List.cons_append]; exact skipWs_cons_not _ (by simp [isWs])]
    rw [parseMembers_ser k' v' t' hwv' hwk' f' (by simp [sizeO] at hf ⊢; omega) r
      (acc.setKey k v)]
    rfl
  termination_by k v t _ _ _ _ _ _ => sizeO (.cons k v t)
  decreasing_by all_goals (simp only [sizeJ, sizeA, sizeO]; omega)

end

mutual

theorem sizeJ_le_len : ∀ j : Json, sizeJ j ≤ (serJson j).length
  | .null => by simp [sizeJ, serJson]
  | .bool true => by simp [sizeJ, serJson]
  | .bool false => by simp [sizeJ, serJson]
  | .int (.ofNat m) => by
    obtain ⟨d, ds, hser, -, -⟩ := serNat_head m
    show sizeJ (.int (.ofNat m)) ≤ (serNat m).length
    rw [hser]
    simp [sizeJ]
  | .int (.negSucc k) => by
    show sizeJ (.int (.negSucc k)) ≤ (45 :: serNat (k + 1)).length
    simp [sizeJ]
  | .str s => by simp [sizeJ, serJson, serStr]
  | .arr a => by
    have := sizeA_le_len a
    show 1 + sizeA a ≤ (91 :: serArr a ++ [93]).length
    simp only [List.length_cons, List.length_append, List.length_cons, List.length_nil]
    omega
  | .obj o => by
    have := sizeO_le_len o
    show 1 + sizeO o ≤ (123 :: serObj o ++ [125]).length
    simp only [List.length_cons, List.length_append, List.length_cons, List.length_nil]
    omega

theorem sizeA_le_len : ∀ a : JsonArr, sizeA a ≤ (serArr a).length + 1
  | .nil => by simp [sizeA, serArr]
  | .cons h .nil => by
    have := sizeJ_le_len h
    show 1 + sizeJ h + sizeA .nil ≤ (serJson h).length + 1
    simp only [sizeA]
    omega
  | .cons h (.cons h' t') => by
    have h1 := sizeJ_le_len h
    have h2 := sizeA_le_len (.cons h' t')
    show 1 + sizeJ h + sizeA (.cons h' t') ≤
      (serJson h ++ [44, 32] ++ serArr (.cons h' t')).length + 1
    simp only [List.length_append, List.length_cons, List.length_nil]
    omega

theorem sizeO_le_len : ∀ o : JsonObj, sizeO o ≤ (serObj o).length + 1
  | .nil => by simp [sizeO, serObj]
  | .cons k v .nil => by
    have := sizeJ_le_len v
    show 1 + sizeJ v + sizeO .nil ≤ (serStr k ++ [58, 32] ++ serJson v).length + 1
    simp only [sizeO, serStr, List.length_append, List.length_cons, List.length_nil]
    omega
  | .cons k v (.cons k' v' t') => by
    have h1 := sizeJ_le_len v
    have h2 := sizeO_le_len (.cons k' v' t')
    show 1 + sizeJ v + sizeO (.cons k' v' t') ≤
      (serStr k ++ [58, 32] ++ serJson v ++ [44, 32] ++ serObj (.cons k' v' t')).length + 1
    simp only [serStr, List.length_append, List.length_cons, List.length_nil]
    omega

end

/-- The parser undoes the serializer on any well-formed JSON value. -/
theorem loads_serJson (j : Json) (hw : wfJson j = true) : loads (serJson j) = some j := by
  have h0 : skipWs (serJson j) = serJson j := by
    have := skipWs_serJson j []
    simpa using this
  have hp := parseVal_ser j hw ((serJson j).length + 1)
    (by have := sizeJ_le_len j; omega) [] rfl
  rw [List.append_nil] at hp
  unfold loads
  rw [h0, hp]
  rfl

theorem hex4_ascii (n : Nat) : ∀ x ∈ hex4 n, x < 128 := by
  intro x hx
  have : ∀ d, d < 16 → hexDigit d < 128 := by decide
  simp only [hex4, List.mem_cons, List.not_mem_nil, or_false] at hx
  rcases hx with rfl | rfl | rfl | rfl <;>
    exact this _ (Nat.mod_lt _ (by omega))

theorem escChar_ascii (c : Nat) : ∀ x ∈ escChar c, x < 128 := by
  intro x hx
  unfold escChar at hx
  split at hx
  · simp at hx; omega
  · split at hx
    · simp at hx; omega
    · split at hx
      · simp at hx; omega
      · split at hx
        · simp at hx; omega
        · split at hx
          · simp at hx; omega
          · split at hx
            · simp at hx; omega
            · split at hx
              · simp at hx; omega
              · split at hx
                · next hpr => simp at hx; omega
                · split at hx
                  · simp only [List.mem_cons] at hx
                    rcases hx with rfl | rfl | hx
                    · omega
                    · omega
                    · exact hex4_ascii _ _ (by simpa using hx)
                  · simp only [List.mem_append, List.mem_cons] at hx
                    rcases hx with (rfl | rfl | hx) | (rfl | rfl | hx)
                    · omega
                    · omega
                    · exact hex4_ascii _ _ (by simpa using hx)
                    · omega
                    · omega
                    · exact hex4_ascii _ _ (by simpa using hx)

theorem serNat_ascii (n : Nat) : ∀ x ∈ serNat n, x < 128 := by
  intro x hx
  have := serNat_all_digits (n := n) x hx
  simp [isDigit] at this
  omega

theorem serInt_ascii (n : Int) : ∀ x ∈ serInt n, x < 128 := by
  intro x hx
  match n with
  | .ofNat m => exact serNat_ascii m x hx
  | .negSucc k =>
    simp only [serInt, List.mem_cons] at hx
    rcases hx with rfl | hx
    · omega
    · exact serNat_ascii (k + 1) x hx

theorem serStr_ascii (s : PyStr) : ∀ x ∈ serStr s, x < 128 := by
  intro x hx
  simp only [serStr, List.mem_cons, List.mem_append, List.mem_flatMap,
    List.not_mem_nil, or_false] at hx
  rcases hx with (rfl | ⟨c, -, hc⟩) | rfl
  · omega
  · exact escChar_ascii c x hc
  · omega

mutual

theorem serJson_ascii : ∀ (j : Json), ∀ x ∈ serJson j, x < 128
  | .null => by intro x hx; simp [serJson] at hx; omega
  | .bool true => by intro x hx; simp [serJson] at hx; omega
  | .bool false => by intro x hx; simp [serJson] at hx; omega
  | .int n => fun x hx => serInt_ascii n x hx
  | .str s => fun x hx => serStr_ascii s x hx
  | .arr a => by
    intro x hx
    have hx' : x ∈ 91 :: (serArr a ++ [93]) := hx
    simp only [List.mem_cons, List.mem_append, List.not_mem_nil, or_false] at hx'
    rcases hx' with rfl | hx' | rfl
    · omega
    · exact serArr_ascii a x hx'
    · omega
  | .obj o => by
    intro x hx
    have hx' : x ∈ 123 :: (serObj o ++ [125]) := hx
    simp only [List.mem_cons, List.mem_append, List.not_mem_nil, or_false] at hx'
    rcases hx' with rfl | hx' | rfl
    · omega
    · exact serObj_ascii o x hx'
    · omega

theorem serArr_ascii : ∀ (a : JsonArr), ∀ x ∈ serArr a, x < 128
  | .nil => by intro x hx; simp [serArr] at hx
  | .cons h .nil => fun x hx => serJson_ascii h x hx
  | .cons h (.cons h' t') => by
    intro x hx
    simp only [serArr, List.mem_append, List.mem_cons, List.not_mem_nil, or_false] at hx
    rcases hx with (hx | rfl | rfl) | hx
    · exact serJson_ascii h x hx
    · omega
    · omega
    · exact serArr_ascii (.cons h' t') x hx

theorem serObj_ascii : ∀ (o : JsonObj), ∀ x ∈ serObj o, x < 128
  | .nil => by intro x hx; simp [serObj] at hx
  | .cons k v .nil => by
    intro x hx
    simp only [serObj, List.mem_append, List.mem_cons, List.not_mem_nil, or_false] at hx
    rcases hx with (hx | rfl | rfl) | hx
    · exact serStr_ascii k x hx
    · omega
    · omega
    · exact serJson_ascii v x hx
  | .cons k v (.cons k' v' t') => by
    intro x hx
    simp only [serObj, List.mem_append, List.mem_cons, List.not_mem_nil, or_false] at hx
    rcases hx with (((hx | rfl | rfl) | hx) | rfl | rfl) | hx
    · exact serStr_ascii k x hx
    · omega
    · omega
    · exact serJson_ascii v x hx
    · omega
    · omega
    · exact serObj_ascii (.cons k' v' t') x hx

end

theorem utf8Enc_ascii : ∀ (s : PyStr), (∀ x ∈ s, x < 128) → utf8Enc s = some s := by
  intro s
  induction s with
  | nil => intro _; rfl
  | cons c r ih =>
    intro h
    have hc : c < 128 := h c (by simp)
    have hr := ih (fun x hx => h x (by simp [hx]))
    simp only [utf8Enc, utf8EncCp, if_pos hc, hr]
    rfl

theorem utf8DecF_ascii : ∀ (s : PyStr), (∀ x ∈ s, x < 128) →
    ∀ fuel, s.length < fuel → utf8DecF fuel s = some s := by
  intro s
  induction s with
  | nil =>
    intro _ fuel hf
    obtain ⟨f, rfl⟩ : ∃ f, fuel = f + 1 := ⟨fuel - 1, by omega⟩
    rfl
  | cons c r ih =>
    intro h fuel hf
    obtain ⟨f, rfl⟩ : ∃ f, fuel = f + 1 := ⟨fuel - 1, by omega⟩
    have hc : c < 128 := h c (by simp)
    have hr := ih (fun x hx => h x (by simp [hx])) f (by simp at hf; omega)
    show (if c < 128 then (utf8DecF f r).map (c :: ·) else _) = some (c :: r)
    rw [if_pos hc, hr]
    rfl

theorem utf8Dec_ascii (s : PyStr) (h : ∀ x ∈ s, x < 128) : utf8Dec s = some s :=
  utf8DecF_ascii s h (s.length + 1) (by omega)

/-- Decoding the envelope dict built by `to_json` recovers the message, for
any field contents — `Message(**data)` does not inspect the values. -/
theorem fromJsonVal_toJsonVal (m : Message) : fromJsonVal m.toJsonVal = .ok m := by
  obtain ⟨t, n, i, p⟩ := m
  cases t <;> rfl

/-- The envelope dict built by `to_json` is well formed whenever the three
data fields are. -/
theorem wfJson_toJsonVal (m : Message) (hn : wfJson m.sender_name = true)
    (hi : wfJson m.sender_ip = true) (hp : wfJson m.payload = true) :
    wfJson m.toJsonVal = true := by
  obtain ⟨t, n, i, p⟩ := m
  have hstep : wfJson (Message.toJsonVal ⟨t, n, i, p⟩) =
      (wfJson (.str t.value) && (wfJson n && (wfJson i && (wfJson p && true))) &&
        wfKeys [pyStr "type", pyStr "sender_name", pyStr "sender_ip", pyStr "payload"] &&
        decide ([pyStr "type", pyStr "sender_name", pyStr "sender_ip",
          pyStr "payload"].Nodup)) := rfl
  rw [hstep, Bool.and_eq_true, Bool.and_eq_true, Bool.and_eq_true, Bool.and_eq_true,
    Bool.and_eq_true, Bool.and_eq_true]
  exact ⟨⟨⟨by cases t <;> decide, hn, hi, hp, rfl⟩, by decide⟩, by decide⟩

/-- Full codec round trip: the bytes `to_bytes` produces decode back to the
same envelope, field for field. -/
theorem from_bytes_to_bytes (m : Message) (hn : wfJson m.sender_name = true)
    (hi : wfJson m.sender_ip = true) (hp : wfJson m.payload = true) :
    m.to_bytes = some m.to_json ∧ Message.from_bytes m.to_json = .ok m := by
  have hwf := wfJson_toJsonVal m hn hi hp
  have hascii : ∀ x ∈ m.to_json, x < 128 := fun x hx => serJson_ascii m.toJsonVal x hx
  constructor
  · exact utf8Enc_ascii m.to_json hascii
  · unfold Message.from_bytes
    rw [utf8Dec_ascii m.to_json hascii]
    show Message.from_json m.to_json = .ok m
    unfold Message.from_json
    rw [show loads m.to_json = some m.toJsonVal from loads_serJson m.toJsonVal hwf]
    exact fromJsonVal_toJsonVal m

/-! ## Claims about the wire codec. -/

/-- C1: for every well-formed Envelope — a recognized type (guaranteed by the
`MessageType` field), string `senderName` and `senderIP` holding proper
Unicode text, and a JSON-representable string-keyed payload (`None` or a
well-formed dict) — encoding succeeds and decoding the produced bytes yields
the same Envelope field-for-field: `decode(encode(E)) = E`. -/
theorem c1_codec_round_trip (m : Message)
    (hname : ∃ s, m.sender_name = Json.str s) (hip : ∃ s, m.sender_ip = Json.str s)
    (hwn : wfJson m.sender_name = true) (hwi : wfJson m.sender_ip = true)
    (hpay : m.payload = Json.null ∨ ∃ o, m.payload = Json.obj o)
    (hwp : wfJson m.payload = true) :
    m.to_bytes = some m.to_json ∧ Message.from_bytes m.to_json = .ok m :=
  from_bytes_to_bytes m hwn hwi hwp

/-- A concrete TEXT envelope used to instantiate the codec claims. -/
def c1msg : Message :=
  ⟨.TEXT, .str (pyStr "alice"), .str (pyStr ""),
    .obj (.cons (pyStr "text") (.str (pyStr "hi")) .nil)⟩

theorem c1_codec_round_trip_witness :
    c1msg.to_bytes = some c1msg.to_json ∧ Message.from_bytes c1msg.to_json = .ok c1msg :=
  c1_codec_round_trip c1msg ⟨_, rfl⟩ ⟨_, rfl⟩ (by decide) (by decide)
    (.inr ⟨_, rfl⟩) (by decide)

theorem from_bytes_via (bs : List Nat) (s : PyStr) (h : utf8Dec bs = some s) :
    Message.from_bytes bs = Message.from_json s := by
  unfold Message.from_bytes
  rw [h]

theorem from_json_via (s : PyStr) (j : Json) (h : loads s = some j) :
    Message.from_json s = fromJsonVal j := by
  unfold Message.from_json
  rw [h]

theorem fromJsonVal_obj (o : JsonObj) :
    fromJsonVal (.obj o) =
      (match o.find (pyStr "type") with
      | none => .error .missingType
      | some tv =>
        match messageTypeOf tv with
        | none => .error .badTypeValue
        | some t =>
          if keysAllowed o && o.hasKey (pyStr "sender_name") && o.hasKey (pyStr "sender_ip") then
            .ok ⟨t, (o.find (pyStr "sender_name")).getD .null,
              (o.find (pyStr "sender_ip")).getD .null,
              (o.find (pyStr "payload")).getD .null⟩
          else .error .badKwargs) := rfl

/-- C5: decoding fails with a `DecodeError` on every byte sequence that is
not valid UTF-8, on every decoded object missing one of the required fields
(`type`, `sender_name`, `sender_ip` — `payload` has a dataclass default), and
on every object whose `type` value is not one of the seven enum names; and
every envelope surviving decode carries one of the seven recognized types. -/
theorem c5_decode_rejection :
    (∀ bs : List Nat, utf8Dec bs = none → Message.from_bytes bs = .error .notUtf8) ∧
    (∀ (bs : List Nat) (s : PyStr) (o : JsonObj), utf8Dec bs = some s →
      loads s = some (.obj o) →
      (o.hasKey (pyStr "type") = false ∨ o.hasKey (pyStr "sender_name") = false ∨
        o.hasKey (pyStr "sender_ip") = false) →
      ∃ e, Message.from_bytes bs = .error e) ∧
    (∀ (bs : List Nat) (s : PyStr) (o : JsonObj) (tv : Json), utf8Dec bs = some s →
      loads s = some (.obj o) → o.find (pyStr "type") = some tv →
      messageTypeOf tv = none → Message.from_bytes bs = .error .badTypeValue) ∧
    (∀ (bs : List Nat) (m : Message), Message.from_bytes bs = .ok m →
      m.type = .DISCOVERY ∨ m.type = .TEXT ∨ m.type = .FILE_OFFER ∨ m.type = .FILE_ACCEPT ∨
        m.type = .FILE_REJECT ∨ m.type = .FILE_DATA ∨ m.type = .FILE_END) := by
  refine ⟨?_, ?_, ?_, ?_⟩
  · intro bs h
    unfold Message.from_bytes
    rw [h]
  · intro bs s o hdec hload hmiss
    rw [from_bytes_via bs s hdec, from_json_via s _ hload]
    rcases hft : o.find (pyStr "type") with - | tv
    · exact ⟨.missingType, by simp only [fromJsonVal_obj, hft]⟩
    · rcases hmt : messageTypeOf tv with - | t
      · exact ⟨.badTypeValue, by simp only [fromJsonVal_obj, hft, hmt]⟩
      · have hkt : o.hasKey (pyStr "type") = true := by
          simp [JsonObj.hasKey, hft]
        rcases hmiss with hm | hm | hm
        · rw [hkt] at hm
          exact absurd hm (by simp)
        · refine ⟨.badKwargs, ?_⟩
          simp only [fromJsonVal_obj, hft, hmt]
          rw [if_neg]
          simp [hm]
        · refine ⟨.badKwargs, ?_⟩
          simp only [fromJsonVal_obj, hft, hmt]
          rw [if_neg]
          simp [hm]
  · intro bs s o tv hdec hload hfind hmt
    rw [from_bytes_via bs s hdec, from_json_via s _ hload]
    simp only [fromJsonVal_obj, hfind, hmt]
  · intro bs m _
    cases m.type <;> simp

theorem c5_decode_rejection_witness :
    Message.from_bytes [255] = .error .notUtf8 ∧
    (∃ e, Message.from_bytes (pyStr "\x7b\x7d") = .error e) ∧
    Message.from_bytes
      (serJson (.obj (.cons (pyStr "type") (.str (pyStr "NOPE")) .nil))) =
      .error .badTypeValue ∧
    (c1msg.type = .DISCOVERY ∨ c1msg.type = .TEXT ∨ c1msg.type = .FILE_OFFER ∨
      c1msg.type = .FILE_ACCEPT ∨ c1msg.type = .FILE_REJECT ∨ c1msg.type = .FILE_DATA ∨
      c1msg.type = .FILE_END) :=
  ⟨c5_decode_rejection.1 [255] (by decide),
   c5_decode_rejection.2.1 (pyStr "\x7b\x7d") (pyStr "\x7b\x7d") .nil (by decide)
     (by decide) (.inl (by decide)),
   c5_decode_rejection.2.2.1
     (serJson (.obj (.cons (pyStr "type") (.str (pyStr "NOPE")) .nil)))
     (serJson (.obj (.cons (pyStr "type") (.str (pyStr "NOPE")) .nil)))
     (.cons (pyStr "type") (.str (pyStr "NOPE")) .nil) (.str (pyStr "NOPE"))
     (by decide) (by decide) (by decide) (by decide),
   c5_decode_rejection.2.2.2 c1msg.to_json c1msg
     (by decide)⟩

/-- C10: decoding fails on every valid-UTF-8 JSON object that carries a key
other than the four envelope fields — `Message(**data)` raises `TypeError`
on any unexpected keyword, so unknown fields are rejected, never ignored. -/
theorem c10_extra_keys_rejected :
    ∀ (bs : List Nat) (s : PyStr) (o : JsonObj), utf8Dec bs = some s →
      loads s = some (.obj o) →
      (∃ k ∈ o.keys, k ≠ pyStr "type" ∧ k ≠ pyStr "sender_name" ∧
        k ≠ pyStr "sender_ip" ∧ k ≠ pyStr "payload") →
      ∃ e, Message.from_bytes bs = .error e := by
  intro bs s o hdec hload hextra
  rw [from_bytes_via bs s hdec, from_json_via s _ hload]
  rcases hft : o.find (pyStr "type") with - | tv
  · exact ⟨.missingType, by simp only [fromJsonVal_obj, hft]⟩
  · rcases hmt : messageTypeOf tv with - | t
    · exact ⟨.badTypeValue, by simp only [fromJsonVal_obj, hft, hmt]⟩
    · refine ⟨.badKwargs, ?_⟩
      simp only [fromJsonVal_obj, hft, hmt]
      rw [if_neg]
      obtain ⟨k, hk, h1, h2, h3, h4⟩ := hextra
      have hka : keysAllowed o = false := by
        unfold keysAllowed
        rw [List.all_eq_false]
        exact ⟨k, hk, by simp [h1, h2, h3, h4]⟩
      simp [hka]

theorem c10_extra_keys_rejected_witness :
    ∃ e, Message.from_bytes
      (serJson (.obj (.cons (pyStr "type") (.str (pyStr "TEXT"))
        (.cons (pyStr "sender_name") (.str (pyStr "a"))
          (.cons (pyStr "sender_ip") (.str (pyStr "b"))
            (.cons (pyStr "payload") .null
              (.cons (pyStr "extra") (.int 1) .nil))))))) = .error e :=
  c10_extra_keys_rejected
    (serJson (.obj (.cons (pyStr "type") (.str (pyStr "TEXT"))
      (.cons (pyStr "sender_name") (.str (pyStr "a"))
        (.cons (pyStr "sender_ip") (.str (pyStr "b"))
          (.cons (pyStr "payload") .null
            (.cons (pyStr "extra") (.int 1) .nil)))))))
    (serJson (.obj (.cons (pyStr "type") (.str (pyStr "TEXT"))
      (.cons (pyStr "sender_name") (.str (pyStr "a"))
        (.cons (pyStr "sender_ip") (.str (pyStr "b"))
          (.cons (pyStr "payload") .null
            (.cons (pyStr "extra") (.int 1) .nil)))))))
    (.cons (pyStr "type") (.str (pyStr "TEXT"))
      (.cons (pyStr "sender_name") (.str (pyStr "a"))
        (.cons (pyStr "sender_ip") (.str (pyStr "b"))
          (.cons (pyStr "payload") .null
            (.cons (pyStr "extra") (.int 1) .nil)))))
    (by decide) (by decide)
    ⟨pyStr "extra", by decide, by decide, by decide, by decide, by decide⟩

/-! ## Transport: `NetworkManager._handle_client` in `src/core/network.py`.
An inbound connection is modelled as the list of byte chunks the transport
delivers; `recvStream k` models one `sock.recv(k)` call (it returns up to
`k` bytes of the currently delivered chunk, and `[]` once the peer has
closed), and the handler is a fuel-indexed loop (`totalBytes + 1` fuel is
always enough, since every non-final iteration consumes at least one
byte). -/

/-- `BUFFER_SIZE` from `protocol.py`. -/
def BUFFER_SIZE : Nat := 4096

/-- `int.from_bytes(bs, byteorder='big')`. -/
def beToNat (bs : List Nat) : Nat := bs.foldl (fun a b => a * 256 + b) 0

/-- `n.to_bytes(4, byteorder='big')` (total, reducing modulo `2^32`). -/
def natToBe4 (n : Nat) : List Nat :=
  [n / 16777216 % 256, n / 65536 % 256, n / 256 % 256, n % 256]

/-- One `sock.recv(k)`: up to `k` bytes from the currently delivered chunk;
an exhausted stream (peer closed the connection) yields `[]`. -/
def recvStream (k : Nat) : List (List Nat) → (List Nat × List (List Nat))
  | [] => ([], [])
  | c :: rest => (c.take k, if c.drop k = [] then rest else c.drop k :: rest)

/-- Total number of bytes still deliverable. -/
def totalBytes (chunks : List (List Nat)) : Nat := (chunks.map List.length).sum

/-- The body-read loop of `_handle_client`:
`while len(data) < msg_len: chunk = sock.recv(min(msg_len - len(data),
BUFFER_SIZE)); if not chunk: break; data += chunk`.  The fuel keeps the
recursion structural; `need` itself is always enough fuel because every
iteration consumes at least one byte of `need`. -/
def readBodyF : Nat → Nat → List (List Nat) → (List Nat × List (List Nat))
  | 0, _, chunks => ([], chunks)
  | fuel + 1, need, chunks =>
    if need = 0 then ([], chunks)
    else
      let p := recvStream (min need BUFFER_SIZE) chunks
      if p.1 = [] then ([], p.2)
      else
        let q := readBodyF fuel (need - p.1.length) p.2
        (p.1 ++ q.1, q.2)

/-- Read exactly `need` body bytes (or fewer, when the peer closes early). -/
def readBody (need : Nat) (chunks : List (List Nat)) : List Nat × List (List Nat) :=
  readBodyF need need chunks

/-- How the connection handler terminated: a clean `break` (empty read or a
short body) versus a caught exception (decode failure or a raise inside
`_handle_file_data`).  Both paths close the socket. -/
inductive ExitStatus where
  | clean | errored
deriving DecidableEq

/-- What one connection produced: the envelopes decoded (in order, after the
`sender_ip` overwrite), the envelopes dispatched to `on_message`, and how the
handler ended. -/
structure HandlerResult where
  decoded : List Message
  events : List Message
  exit : ExitStatus
deriving DecidableEq

/-- `_handle_file_data` raises unless the payload is a dict whose `data`
entry is a string that `str.encode('latin1')` accepts (all code points below
256): `payload.get(...)` raises `AttributeError` on a non-dict (including
`None`), `None.encode` raises when `data` is absent, `.encode` raises on a
non-string, and latin-1 encoding fails above U+00FF.  Nothing is ever
persisted on the success path (`pass`). -/
def fileDataRaises (p : Json) : Bool :=
  match p with
  | .obj o =>
    match o.find (pyStr "data") with
    | some (.str s) => s.any (fun c => 255 < c)
    | _ => true
  | _ => true

/-- `msg.sender_ip = ip` — the overwrite with the socket peer address. -/
def withIp (ip : String) (m : Message) : Message := { m with sender_ip := .str (pyStr ip) }

/-- The body of `_handle_client`, one iteration of the `while` loop per unit
of fuel: read `sock.recv(4)` as the length prefix (note: the code does not
loop here, so a short read is parsed as a full prefix), read the body, decode,
overwrite `sender_ip`, then either feed `_handle_file_data` or dispatch to
`on_message`. -/
def handleLoop : Nat → String → List (List Nat) → HandlerResult
  | 0, _, _ => ⟨[], [], .clean⟩
  | fuel + 1, ip, chunks =>
    let pr := recvStream 4 chunks
    if pr.1 = [] then ⟨[], [], .clean⟩
    else
      let msgLen := beToNat pr.1
      let bo := readBody msgLen pr.2
      if bo.1.length ≠ msgLen then ⟨[], [], .clean⟩
      else
        match Message.from_bytes bo.1 with
        | .error _ => ⟨[], [], .errored⟩
        | .ok m0 =>
          let m := withIp ip m0
          if m.type = MessageType.FILE_DATA then
            if fileDataRaises m.payload then ⟨[m], [], .errored⟩
            else
              let r := handleLoop fuel ip bo.2
              ⟨m :: r.decoded, r.events, r.exit⟩
          else
            let r := handleLoop fuel ip bo.2
            ⟨m :: r.decoded, m :: r.events, r.exit⟩

/-- The connection handler on a delivered chunk stream. -/
def handleClient (ip : String) (chunks : List (List Nat)) : HandlerResult :=
  handleLoop (totalBytes chunks + 1) ip chunks

theorem handleLoop_nil (fuel : Nat) (ip : String) :
    handleLoop fuel ip [] = ⟨[], [], .clean⟩ := by
  cases fuel <;> rfl

theorem readBodyF_zero (fuel : Nat) (chunks : List (List Nat)) :
    readBodyF fuel 0 chunks = ([], chunks) := by
  cases fuel <;> rfl

theorem beToNat_natToBe4 (n : Nat) (h : n < 4294967296) : beToNat (natToBe4 n) = n := by
  simp only [natToBe4, beToNat, List.foldl_cons, List.foldl_nil]
  omega

theorem natToBe4_length (n : Nat) : (natToBe4 n).length = 4 := rfl


theorem readBodyF_exact : ∀ (fuel need : Nat) (c : List Nat) (rest : List (List Nat)),
    c.length = need → need ≤ fuel → c ≠ [] →
    readBodyF fuel need (c :: rest) = (c, rest) := by
  intro fuel
  induction fuel with
  | zero =>
    intro need c rest hlen hf hne
    have : need = 0 := by omega
    subst this
    have : c = [] := List.length_eq_zero.mp hlen
    exact absurd this hne
  | succ f ih =>
    intro need c rest hlen hf hne
    have hpos : 0 < need := by
      cases c with
      | nil => exact absurd rfl hne
      | cons a t => simp at hlen; omega
    have hB : BUFFER_SIZE = 4096 := rfl
    simp only [readBodyF, if_neg (by omega : ¬need = 0), recvStream]
    by_cases hsm : need ≤ BUFFER_SIZE
    · have hk : min need BUFFER_SIZE = need := by omega
      rw [hk, ← hlen, List.take_length, List.drop_length]
      simp only [if_pos rfl]
      rw [if_neg (by simp [hne])]
      rw [hlen]
      simp only [Nat.sub_self, readBodyF_zero]
      simp
    · have hk : min need BUFFER_SIZE = BUFFER_SIZE := by omega
      rw [hk]
      have hlt : BUFFER_SIZE < c.length := by omega
      have htk : c.take BUFFER_SIZE ≠ [] := by
        simp [List.take_eq_nil_iff]
        constructor
        · simp [BUFFER_SIZE]
        · exact hne
      have hdr : c.drop BUFFER_SIZE ≠ [] := by
        simp [List.drop_eq_nil_iff]
        omega
      rw [if_neg hdr, if_neg htk]
      have htl : (c.take BUFFER_SIZE).length = BUFFER_SIZE := List.length_take_of_le (by omega)
      rw [htl]
      rw [ih (need - BUFFER_SIZE) (c.drop BUFFER_SIZE) rest
        (by simp [List.length_drop]; omega) (by omega) hdr]
      simp [List.take_append_drop]

theorem readBodyF_short : ∀ (fuel need : Nat) (chunks : List (List Nat)),
    totalBytes chunks < need → need ≤ fuel → (∀ c ∈ chunks, c ≠ []) →
    readBodyF fuel need chunks = (chunks.flatten, []) := by
  intro fuel
  induction fuel with
  | zero =>
    intro need chunks htot hf _
    omega
  | succ f ih =>
    intro need chunks htot hf hne
    have hpos : 0 < need := by
      have : 0 ≤ totalBytes chunks := Nat.zero_le _
      omega
    match chunks with
    | [] =>
      simp only [readBodyF, if_neg (by omega : ¬need = 0), recvStream]
      simp
    | c :: rest =>
      have hcne : c ≠ [] := hne c (by simp)
      have hB : BUFFER_SIZE = 4096 := rfl
      have hcl : 0 < c.length := List.length_pos.mpr hcne
      have htot' : c.length + totalBytes rest < need := by
        simp only [totalBytes, List.map_cons, List.sum_cons] at htot
        simpa [totalBytes] using htot
      simp only [readBodyF, if_neg (by omega : ¬need = 0), recvStream]
      by_cases hck : c.length ≤ min need BUFFER_SIZE
      · rw [List.take_of_length_le hck, List.drop_of_length_le hck]
        simp only [reduceIte]
        rw [if_neg hcne]
        rw [ih (need - c.length) rest (by omega) (by omega)
          (fun x hx => hne x (by simp [hx]))]
        simp
      · have hk : min need BUFFER_SIZE = BUFFER_SIZE := by
          simp at hck
          omega
        rw [hk]
        have htk : c.take BUFFER_SIZE ≠ [] := by
          simp [List.take_eq_nil_iff]
          exact ⟨by simp [BUFFER_SIZE], hcne⟩
        have hdr : c.drop BUFFER_SIZE ≠ [] := by
          simp [List.drop_eq_nil_iff]
          simp at hck
          omega
        rw [if_neg hdr, if_neg htk]
        have htl : (c.take BUFFER_SIZE).length = BUFFER_SIZE := by
          simp at hck
          exact List.length_take_of_le (by omega)
        rw [htl]
        rw [ih (need - BUFFER_SIZE) (c.drop BUFFER_SIZE :: rest) ?_ (by omega) ?_]
        · simp only [List.flatten_cons]
          rw [← List.append_assoc, List.take_append_drop]
        · simp only [totalBytes, List.map_cons, List.sum_cons, List.length_drop]
          simp only [totalBytes, List.map_cons, List.sum_cons] at htot
          omega
        · intro x hx
          simp at hx
          rcases hx with rfl | hx
          · exact hdr
          · exact hne x (by simp [hx])


theorem handleLoop_frame (fuel : Nat) (ip : String) (body : List Nat)
    (rest : List (List Nat)) (m : Message)
    (hb : body ≠ []) (hlen : body.length < 4294967296)
    (hdec : Message.from_bytes body = .ok m) :
    handleLoop (fuel + 1) ip ((natToBe4 body.length ++ body) :: rest) =
      if (withIp ip m).type = MessageType.FILE_DATA then
        if fileDataRaises (withIp ip m).payload then ⟨[withIp ip m], [], .errored⟩
        else
          ⟨withIp ip m :: (handleLoop fuel ip rest).decoded,
           (handleLoop fuel ip rest).events, (handleLoop fuel ip rest).exit⟩
      else
        ⟨withIp ip m :: (handleLoop fuel ip rest).decoded,
         withIp ip m :: (handleLoop fuel ip rest).events,
         (handleLoop fuel ip rest).exit⟩ := by
  have h4 : (natToBe4 body.length).length = 4 := rfl
  have htake : (natToBe4 body.length ++ body).take 4 = natToBe4 body.length := by
    rw [← h4, List.take_left]
  have hdrop : (natToBe4 body.length ++ body).drop 4 = body := by
    rw [← h4, List.drop_left]
  simp only [handleLoop, recvStream, htake, hdrop, if_neg hb]
  rw [if_neg (by simp [natToBe4] : ¬natToBe4 body.length = [])]
  rw [beToNat_natToBe4 body.length hlen]
  simp only [readBody]
  rw [readBodyF_exact body.length body.length body rest rfl le_rfl hb]
  rw [if_neg (by simp : ¬¬body.length = body.length)]
  rw [hdec]

theorem handleLoop_decoded_ip (fuel : Nat) (ip : String) :
    ∀ (chunks : List (List Nat)),
    ∀ m ∈ (handleLoop fuel ip chunks).decoded, m.sender_ip = .str (pyStr ip) := by
  induction fuel with
  | zero => intro chunks m hm; simp [handleLoop] at hm
  | succ f ih =>
    intro chunks m hm
    simp only [handleLoop] at hm
    split at hm
    · simp at hm
    · split at hm
      · simp at hm
      · split at hm
        · simp at hm
        · rename_i m0 _
          split at hm
          · split at hm
            · simp at hm
              subst hm
              rfl
            · simp at hm
              rcases hm with rfl | hm
              · rfl
              · exact ih _ m hm
          · simp at hm
            rcases hm with rfl | hm
            · rfl
            · exact ih _ m hm

theorem handleLoop_events_filter (fuel : Nat) (ip : String) :
    ∀ (chunks : List (List Nat)),
    (handleLoop fuel ip chunks).events
      = (handleLoop fuel ip chunks).decoded.filter
          (fun m => !(decide (m.type = MessageType.FILE_DATA))) := by
  induction fuel with
  | zero => intro chunks; rfl
  | succ f ih =>
    intro chunks
    simp only [handleLoop]
    split
    · rfl
    · split
      · rfl
      · split
        · rfl
        · rename_i m0 _
          split
          · rename_i hfd
            split
            · simp [hfd]
            · rw [List.filter_cons, if_neg (by simp [hfd])]
              exact ih _
          · rename_i hfd
            simp only [List.filter_cons, decide_eq_true_eq]
            rw [if_pos (by simp [hfd])]
            rw [ih _]

/-- A concrete TEXT envelope, distinct from the codec one. -/
def c2msg : Message :=
  ⟨.TEXT, .str (pyStr "alice"), .str (pyStr ""),
    .obj (.cons (pyStr "text") (.str (pyStr "bye")) .nil)⟩

/-- A message's length-prefixed frame, exactly as `_send_to_peer` writes it. -/
def frameOf (m : Message) : List Nat :=
  natToBe4 (m.to_bytes.getD []).length ++ m.to_bytes.getD []

set_option maxRecDepth 8000 in
/-- C2: the spec says every chunking of the byte stream is reframed
correctly, but `_handle_client` calls `sock.recv(4)` once without looping;
when the transport delivers the first byte of the length prefix alone, the
handler treats that single byte as the whole prefix, reads a zero-length
body, fails to decode it and dispatches nothing, while the very same frame
delivered in one chunk decodes and dispatches fine. -/
theorem c2_framing_not_chunk_robust :
    handleClient "10.0.0.7" [frameOf c2msg] =
      ⟨[withIp "10.0.0.7" c2msg], [withIp "10.0.0.7" c2msg], .clean⟩ ∧
    handleClient "10.0.0.7" [(frameOf c2msg).take 1, (frameOf c2msg).drop 1] =
      ⟨[], [], .errored⟩ := by
  exact ⟨by decide, by decide⟩

/-- C4: every envelope the handler decodes (hence everything dispatched)
carries the socket peer address in `sender_ip`; and two frames whose bodies
decode to messages that agree except on the sender-supplied `sender_ip`
produce identical handler output. -/
theorem c4_sender_ip_authoritative :
    (∀ (ip : String) (chunks : List (List Nat)),
        ∀ m ∈ (handleClient ip chunks).decoded, m.sender_ip = .str (pyStr ip)) ∧
    (∀ (ip : String) (m1 m2 : Message) (b1 b2 : List Nat),
        m1.type = m2.type → m1.sender_name = m2.sender_name →
        m1.payload = m2.payload →
        Message.from_bytes b1 = .ok m1 → Message.from_bytes b2 = .ok m2 →
        b1 ≠ [] → b2 ≠ [] → b1.length < 4294967296 → b2.length < 4294967296 →
        handleClient ip [natToBe4 b1.length ++ b1] =
          handleClient ip [natToBe4 b2.length ++ b2]) := by
  constructor
  · intro ip chunks m hm
    exact handleLoop_decoded_ip _ ip chunks m hm
  · intro ip m1 m2 b1 b2 ht hn hp h1 h2 hb1 hb2 hl1 hl2
    have hw : withIp ip m1 = withIp ip m2 := by
      obtain ⟨t1, n1, i1, p1⟩ := m1
      obtain ⟨t2, n2, i2, p2⟩ := m2
      simp only [withIp, Message.mk.injEq] at ht hn hp ⊢
      exact ⟨ht, hn, trivial, hp⟩
    show handleLoop _ ip _ = handleLoop _ ip _
    rw [handleLoop_frame _ ip b1 [] m1 hb1 hl1 h1,
        handleLoop_frame _ ip b2 [] m2 hb2 hl2 h2, hw]
    simp only [handleLoop_nil]

def c4msgA : Message :=
  ⟨.TEXT, .str (pyStr "carol"), .str (pyStr "1.2.3.4"),
    .obj (.cons (pyStr "text") (.str (pyStr "yo")) .nil)⟩

def c4msgB : Message :=
  ⟨.TEXT, .str (pyStr "carol"), .str (pyStr "5.6.7.8"),
    .obj (.cons (pyStr "text") (.str (pyStr "yo")) .nil)⟩

set_option maxRecDepth 8000 in
theorem c4_sender_ip_authoritative_witness :
    (withIp "10.0.0.9" c4msgA).sender_ip = .str (pyStr "10.0.0.9") ∧
    handleClient "10.0.0.9" [natToBe4 c4msgA.to_json.length ++ c4msgA.to_json] =
      handleClient "10.0.0.9" [natToBe4 c4msgB.to_json.length ++ c4msgB.to_json] :=
  ⟨c4_sender_ip_authoritative.1 "10.0.0.9"
      [natToBe4 c4msgA.to_json.length ++ c4msgA.to_json] (withIp "10.0.0.9" c4msgA)
      (by decide),
   c4_sender_ip_authoritative.2 "10.0.0.9" c4msgA c4msgB c4msgA.to_json c4msgB.to_json
      rfl rfl rfl (by decide) (by decide) (by decide) (by decide) (by decide) (by decide)⟩

/-- C6: a prefix announcing `n` body bytes followed by a stream that closes
after fewer than `n` bytes ends the handler cleanly: nothing decoded, nothing
dispatched, no error surfaced. -/
theorem c6_short_read_clean (ip : String) (n : Nat) (bodyChunks : List (List Nat))
    (hn : n < 4294967296) (htot : totalBytes bodyChunks < n)
    (hne : ∀ c ∈ bodyChunks, c ≠ []) :
    handleClient ip (natToBe4 n :: bodyChunks) = ⟨[], [], .clean⟩ := by
  have h4 : (natToBe4 n).length = 4 := rfl
  have hflat : bodyChunks.flatten.length = totalBytes bodyChunks := by
    rw [List.length_flatten]; rfl
  show handleLoop _ ip _ = _
  simp only [handleLoop, recvStream]
  rw [List.take_of_length_le (le_of_eq h4), List.drop_of_length_le (le_of_eq h4)]
  rw [if_pos rfl]
  rw [if_neg (by simp [natToBe4] : ¬natToBe4 n = [])]
  rw [beToNat_natToBe4 n hn]
  simp only [readBody]
  rw [readBodyF_short n n bodyChunks htot le_rfl hne]
  rw [if_pos (by rw [hflat]; omega : bodyChunks.flatten.length ≠ n)]

theorem c6_short_read_clean_witness :
    handleClient "10.0.0.3" (natToBe4 100 :: [List.replicate 40 65]) = ⟨[], [], .clean⟩ :=
  c6_short_read_clean "10.0.0.3" 100 [List.replicate 40 65] (by decide) (by decide)
    (by decide)

/-- C7: the handler dispatches exactly the decoded envelopes that are not
FILE_DATA — every non-FILE_DATA decode reaches `on_message`, and no
FILE_DATA envelope ever does. -/
theorem c7_file_data_not_dispatched (ip : String) (chunks : List (List Nat)) :
    (handleClient ip chunks).events
      = (handleClient ip chunks).decoded.filter
          (fun m => !(decide (m.type = MessageType.FILE_DATA))) ∧
    ∀ m ∈ (handleClient ip chunks).events, m.type ≠ MessageType.FILE_DATA := by
  have h : (handleClient ip chunks).events
      = (handleClient ip chunks).decoded.filter
          (fun m => !(decide (m.type = MessageType.FILE_DATA))) :=
    handleLoop_events_filter (totalBytes chunks + 1) ip chunks
  refine ⟨h, ?_⟩
  intro m hm
  rw [h] at hm
  have hp := (List.mem_filter.mp hm).2
  simpa using hp

set_option maxRecDepth 8000 in
theorem c7_file_data_not_dispatched_witness :
    ((handleClient "10.0.0.2" [frameOf c2msg]).events
        = (handleClient "10.0.0.2" [frameOf c2msg]).decoded.filter
            (fun m => !(decide (m.type = MessageType.FILE_DATA)))) ∧
    (withIp "10.0.0.2" c2msg).type ≠ MessageType.FILE_DATA :=
  ⟨(c7_file_data_not_dispatched "10.0.0.2" [frameOf c2msg]).1,
   (c7_file_data_not_dispatched "10.0.0.2" [frameOf c2msg]).2 (withIp "10.0.0.2" c2msg)
     (by decide)⟩


/-! ### Peer discovery (`discovery.py`)

`PeerDiscovery` keeps two insertion-ordered dicts, `peers : ip -> last_seen`
and `peer_names : ip -> username`; times are modelled as integers
(of `time.time()` only ordering and differences matter here).  A Python
dict assignment keeps an existing key's position and replaces its value, a
new key goes to the end; `del` removes the key. -/

def DISCOVERY_INTERVAL : ℤ := 2

/-- `d[k] = v` on an insertion-ordered dict. -/
def setAssoc {α : Type} : List (String × α) → String → α → List (String × α)
  | [], k, v => [(k, v)]
  | (k', v') :: rest, k, v =>
    if k' = k then (k, v) :: rest else (k', v') :: setAssoc rest k v

/-- `k in d`. -/
def hasAssoc {α : Type} (l : List (String × α)) (k : String) : Bool :=
  l.any (fun p => decide (p.1 = k))

/-- `d.get(k)`. -/
def getAssoc {α : Type} (l : List (String × α)) (k : String) : Option α :=
  (l.find? (fun p => decide (p.1 = k))).map (·.2)

/-- `del d[k]` (a no-op when the key is absent, matching the guarded del). -/
def delAssoc {α : Type} (l : List (String × α)) (k : String) : List (String × α) :=
  l.filter (fun p => !(decide (p.1 = k)))

def keysOf {α : Type} (l : List (String × α)) : List String := l.map (·.1)

structure DiscoveryState where
  peers : List (String × ℤ)
  peer_names : List (String × String)
deriving DecidableEq

/-- What the two callbacks observe. -/
inductive DiscEvent where
  | discovered (ip name : String)
  | lost (ip : String)
deriving DecidableEq

/-- `_handle_discovery`: `is_new = ip not in peers`; unconditionally
`peers[ip] = current_time` and `peer_names[ip] = name`; the
discovered-callback fires only when `is_new`. -/
def handleDiscovery (st : DiscoveryState) (ip name : String) (current_time : ℤ) :
    DiscoveryState × List DiscEvent :=
  let is_new := !hasAssoc st.peers ip
  (⟨setAssoc st.peers ip current_time, setAssoc st.peer_names ip name⟩,
   if is_new then [.discovered ip name] else [])

/-- The `to_remove` list of one `_cleanup_loop` iteration:
ips whose `current_time - last_seen > DISCOVERY_INTERVAL * 3`. -/
def stalePeers (st : DiscoveryState) (current_time : ℤ) : List String :=
  (st.peers.filter (fun p => decide (DISCOVERY_INTERVAL * 3 < current_time - p.2))).map (·.1)

/-- One removal: `del peers[ip]; if ip in peer_names: del peer_names[ip]`. -/
def removeIp (st : DiscoveryState) (ip : String) : DiscoveryState :=
  ⟨delAssoc st.peers ip, delAssoc st.peer_names ip⟩

/-- One `_cleanup_loop` iteration: remove every stale ip and fire the
lost-callback once per removal, in table order. -/
def cleanupPass (st : DiscoveryState) (current_time : ℤ) :
    DiscoveryState × List DiscEvent :=
  let to_remove := stalePeers st current_time
  (to_remove.foldl removeIp st, to_remove.map .lost)

/-- What can happen to the peer table: a DISCOVERY heartbeat arriving, or a
cleanup pass running. -/
inductive DiscInput where
  | heartbeat (ip name : String) (now : ℤ)
  | cleanup (now : ℤ)

def discStep (st : DiscoveryState) : DiscInput → DiscoveryState × List DiscEvent
  | .heartbeat ip name now => handleDiscovery st ip name now
  | .cleanup now => cleanupPass st now

def discRunFrom (st : DiscoveryState) : List DiscInput → DiscoveryState × List DiscEvent
  | [] => (st, [])
  | i :: rest =>
    let p := discStep st i
    let q := discRunFrom p.1 rest
    (q.1, p.2 ++ q.2)

/-- `__init__`: both dicts start empty. -/
def initialDiscoveryState : DiscoveryState := ⟨[], []⟩

def discRun (ins : List DiscInput) : DiscoveryState × List DiscEvent :=
  discRunFrom initialDiscoveryState ins

/-- The events concerning one ip. -/
def epiOf (ip : String) : DiscEvent → Bool
  | .discovered i _ => decide (i = ip)
  | .lost i => decide (i = ip)

def isDisc : DiscEvent → Bool
  | .discovered _ _ => true
  | .lost _ => false

/-- `altFrom b es`: the events alternate discovered/lost, the next one being
a discovered-event iff `b`. -/
def altFrom : Bool → List DiscEvent → Bool
  | _, [] => true
  | b, e :: rest => (isDisc e == b) && altFrom (!b) rest

/-! ### Assoc-list lemmas -/

theorem hasAssoc_iff_mem_keysOf {α : Type} (l : List (String × α)) (k : String) :
    hasAssoc l k = true ↔ k ∈ keysOf l := by
  simp only [hasAssoc, keysOf, List.any_eq_true, List.mem_map, decide_eq_true_eq]

theorem keysOf_setAssoc_of_has {α : Type} :
    ∀ (l : List (String × α)) (k : String) (v : α), hasAssoc l k = true →
    keysOf (setAssoc l k v) = keysOf l := by
  intro l
  induction l with
  | nil => intro k v h; simp [hasAssoc] at h
  | cons p rest ih =>
    intro k v h
    obtain ⟨k0, v0⟩ := p
    by_cases h0 : k0 = k
    · subst h0; simp [setAssoc, keysOf]
    · rw [show setAssoc ((k0, v0) :: rest) k v = (k0, v0) :: setAssoc rest k v by
        simp [setAssoc, h0]]
      simp only [keysOf, List.map_cons]
      have hh : hasAssoc rest k = true := by
        simp only [hasAssoc, List.any_cons] at h
        rcases Bool.or_eq_true_iff.mp h with h1 | h1
        · exact absurd (of_decide_eq_true h1) h0
        · exact h1
      rw [show List.map (fun x => x.1) (setAssoc rest k v) = keysOf (setAssoc rest k v)
          from rfl, ih k v hh]
      rfl

theorem keysOf_setAssoc_of_not {α : Type} :
    ∀ (l : List (String × α)) (k : String) (v : α), hasAssoc l k = false →
    keysOf (setAssoc l k v) = keysOf l ++ [k] := by
  intro l
  induction l with
  | nil => intro k v _; rfl
  | cons p rest ih =>
    intro k v h
    obtain ⟨k0, v0⟩ := p
    simp only [hasAssoc, List.any_cons, Bool.or_eq_false_iff] at h
    obtain ⟨h1, h2⟩ := h
    have h0 : ¬k0 = k := of_decide_eq_false h1
    rw [show setAssoc ((k0, v0) :: rest) k v = (k0, v0) :: setAssoc rest k v by
      simp [setAssoc, h0]]
    simp only [keysOf, List.map_cons, List.cons_append]
    rw [show List.map (fun x => x.1) (setAssoc rest k v) = keysOf (setAssoc rest k v)
        from rfl, ih k v h2]
    rfl

theorem hasAssoc_setAssoc {α : Type} :
    ∀ (l : List (String × α)) (k k' : String) (v : α),
    hasAssoc (setAssoc l k v) k' = (decide (k' = k) || hasAssoc l k') := by
  intro l
  induction l with
  | nil =>
    intro k k' v
    simp only [setAssoc, hasAssoc, List.any_cons, List.any_nil, Bool.or_false]
    by_cases h : k = k'
    · subst h; simp
    · simp [h, Ne.symm h]
  | cons p rest ih =>
    intro k k' v
    obtain ⟨k0, v0⟩ := p
    by_cases h : k0 = k
    · subst h
      simp only [setAssoc, if_pos rfl, hasAssoc, List.any_cons]
      by_cases h2 : k0 = k'
      · subst h2; simp
      · have h2' : ¬k' = k0 := fun e => h2 e.symm
        simp [h2, h2']
    · simp only [setAssoc, if_neg h, hasAssoc, List.any_cons]
      simp only [hasAssoc] at ih
      rw [ih k k' v]
      cases hd : decide (k0 = k') <;> simp

theorem getAssoc_setAssoc_self {α : Type} :
    ∀ (l : List (String × α)) (k : String) (v : α),
    getAssoc (setAssoc l k v) k = some v := by
  intro l
  induction l with
  | nil =>
    intro k v
    simp [setAssoc, getAssoc, List.find?_cons]
  | cons p rest ih =>
    intro k v
    obtain ⟨k0, v0⟩ := p
    by_cases h : k0 = k
    · subst h; simp [setAssoc, getAssoc, List.find?_cons]
    · rw [show setAssoc ((k0, v0) :: rest) k v = (k0, v0) :: setAssoc rest k v by
        simp [setAssoc, h]]
      simp only [getAssoc, List.find?_cons]
      rw [show decide ((k0, v0).1 = k) = false by simp [h]]
      exact ih k v

theorem getAssoc_setAssoc_ne {α : Type} :
    ∀ (l : List (String × α)) (k k' : String) (v : α), k' ≠ k →
    getAssoc (setAssoc l k v) k' = getAssoc l k' := by
  intro l
  induction l with
  | nil =>
    intro k k' v h
    simp only [setAssoc, getAssoc, List.find?_cons, List.find?_nil]
    rw [show decide ((k, v).1 = k') = false from decide_eq_false (fun e => h e.symm)]
  | cons p rest ih =>
    intro k k' v h
    obtain ⟨k0, v0⟩ := p
    by_cases h0 : k0 = k
    · subst h0
      rw [show setAssoc ((k0, v0) :: rest) k0 v = (k0, v) :: rest by simp [setAssoc]]
      simp only [getAssoc, List.find?_cons]
      rw [show decide ((k0, v).1 = k') = false from decide_eq_false (fun e => h e.symm)]
    · rw [show setAssoc ((k0, v0) :: rest) k v = (k0, v0) :: setAssoc rest k v by
        simp [setAssoc, h0]]
      simp only [getAssoc, List.find?_cons]
      cases hd : decide ((k0, v0).1 = k')
      · exact ih k k' v h
      · rfl

theorem keysOf_delAssoc {α : Type} (l : List (String × α)) (k : String) :
    keysOf (delAssoc l k) = (keysOf l).filter (fun x => !(decide (x = k))) := by
  induction l with
  | nil => rfl
  | cons p rest ih =>
    obtain ⟨k0, v0⟩ := p
    simp only [delAssoc, keysOf, List.filter_cons, List.map_cons] at ih ⊢
    cases hd : (!(decide (k0 = k))) <;> simpa using ih

theorem hasAssoc_delAssoc_self {α : Type} (l : List (String × α)) (k : String) :
    hasAssoc (delAssoc l k) k = false := by
  rw [Bool.eq_false_iff]
  intro hc
  rw [hasAssoc, List.any_eq_true] at hc
  obtain ⟨p, hp, hpk⟩ := hc
  have h := List.of_mem_filter hp
  rw [hpk] at h
  simp at h

theorem hasAssoc_delAssoc_ne {α : Type} (l : List (String × α)) (k k' : String)
    (h : k' ≠ k) : hasAssoc (delAssoc l k) k' = hasAssoc l k' := by
  induction l with
  | nil => rfl
  | cons p rest ih =>
    obtain ⟨k0, v0⟩ := p
    simp only [delAssoc, List.filter_cons] at ih ⊢
    by_cases h0 : k0 = k
    · rw [if_neg (by simp [h0])]
      rw [show hasAssoc ((k0, v0) :: rest) k' = hasAssoc rest k' by
        simp only [hasAssoc, List.any_cons]
        rw [show decide ((k0, v0).1 = k') = false by simp [h0, Ne.symm h]]
        rfl]
      exact ih
    · rw [if_pos (by simp [h0])]
      simp only [hasAssoc, List.any_cons]
      simp only [hasAssoc] at ih
      rw [ih]

theorem getAssoc_delAssoc_ne {α : Type} (l : List (String × α)) (k k' : String)
    (h : k' ≠ k) : getAssoc (delAssoc l k) k' = getAssoc l k' := by
  induction l with
  | nil => rfl
  | cons p rest ih =>
    obtain ⟨k0, v0⟩ := p
    simp only [delAssoc, List.filter_cons] at ih ⊢
    by_cases h0 : k0 = k
    · rw [if_neg (by simp [h0])]
      rw [show getAssoc ((k0, v0) :: rest) k' = getAssoc rest k' by
        simp only [getAssoc, List.find?_cons]
        rw [show decide ((k0, v0).1 = k') = false by simp [h0, Ne.symm h]]]
      exact ih
    · rw [if_pos (by simp [h0])]
      simp only [getAssoc, List.find?_cons]
      simp only [getAssoc] at ih
      cases hd : decide ((k0, v0).1 = k')
      · exact ih
      · rfl

theorem nodup_keysOf_setAssoc {α : Type} (l : List (String × α)) (k : String) (v : α)
    (h : (keysOf l).Nodup) : (keysOf (setAssoc l k v)).Nodup := by
  cases hk : hasAssoc l k
  · rw [keysOf_setAssoc_of_not l k v hk]
    rw [List.nodup_append]
    refine ⟨h, List.nodup_singleton k, ?_⟩
    intro x hx hx'
    simp only [List.mem_singleton] at hx'
    subst hx'
    have hmem := (hasAssoc_iff_mem_keysOf l x).mpr hx
    rw [hk] at hmem
    simp at hmem
  · rw [keysOf_setAssoc_of_has l k v hk]
    exact h

theorem nodup_keysOf_delAssoc {α : Type} (l : List (String × α)) (k : String)
    (h : (keysOf l).Nodup) : (keysOf (delAssoc l k)).Nodup := by
  rw [keysOf_delAssoc]
  exact h.filter _

/-! ### foldl removeIp -/

theorem foldl_removeIp_peers : ∀ (ips : List String) (st : DiscoveryState),
    (ips.foldl removeIp st).peers = ips.foldl delAssoc st.peers
  | [], _ => rfl
  | _ :: ips, st => foldl_removeIp_peers ips (removeIp st _)

theorem foldl_removeIp_names : ∀ (ips : List String) (st : DiscoveryState),
    (ips.foldl removeIp st).peer_names = ips.foldl delAssoc st.peer_names
  | [], _ => rfl
  | _ :: ips, st => foldl_removeIp_names ips (removeIp st _)

theorem hasAssoc_foldl_delAssoc_false {α : Type} :
    ∀ (ips : List String) (l : List (String × α)) (k : String),
    hasAssoc l k = false → hasAssoc (ips.foldl delAssoc l) k = false := by
  intro ips
  induction ips with
  | nil => intro l k h; exact h
  | cons i ips ih =>
    intro l k h
    refine ih (delAssoc l i) k ?_
    by_cases hk : k = i
    · subst hk; exact hasAssoc_delAssoc_self l k
    · rw [hasAssoc_delAssoc_ne l i k hk]; exact h

theorem hasAssoc_foldl_delAssoc_of_mem {α : Type} :
    ∀ (ips : List String) (l : List (String × α)) (k : String),
    k ∈ ips → hasAssoc (ips.foldl delAssoc l) k = false := by
  intro ips
  induction ips with
  | nil => intro l k h; simp at h
  | cons i ips ih =>
    intro l k h
    rcases List.mem_cons.mp h with rfl | h
    · exact hasAssoc_foldl_delAssoc_false ips (delAssoc l k) k
        (hasAssoc_delAssoc_self l k)
    · exact ih (delAssoc l i) k h

theorem hasAssoc_foldl_delAssoc_of_not_mem {α : Type} :
    ∀ (ips : List String) (l : List (String × α)) (k : String),
    k ∉ ips → hasAssoc (ips.foldl delAssoc l) k = hasAssoc l k := by
  intro ips
  induction ips with
  | nil => intro l k _; rfl
  | cons i ips ih =>
    intro l k h
    have hk : k ≠ i := fun e => h (e ▸ List.mem_cons_self i ips)
    rw [List.foldl_cons, ih (delAssoc l i) k (fun e => h (List.mem_cons_of_mem i e)),
        hasAssoc_delAssoc_ne l i k hk]

theorem nodup_keysOf_foldl_delAssoc {α : Type} :
    ∀ (ips : List String) (l : List (String × α)),
    (keysOf l).Nodup → (keysOf (ips.foldl delAssoc l)).Nodup := by
  intro ips
  induction ips with
  | nil => intro l h; exact h
  | cons i ips ih => intro l h; exact ih (delAssoc l i) (nodup_keysOf_delAssoc l i h)

/-! ### stalePeers -/

theorem mem_stalePeers (st : DiscoveryState) (now : ℤ) (ip : String) :
    ip ∈ stalePeers st now ↔
      ∃ last, (ip, last) ∈ st.peers ∧ DISCOVERY_INTERVAL * 3 < now - last := by
  simp only [stalePeers, List.mem_map, List.mem_filter]
  constructor
  · rintro ⟨⟨i, t⟩, ⟨hmem, hcond⟩, rfl⟩
    exact ⟨t, hmem, by simpa using hcond⟩
  · rintro ⟨last, hmem, hcond⟩
    exact ⟨(ip, last), ⟨hmem, by simpa using hcond⟩, rfl⟩

theorem nodup_stalePeers (st : DiscoveryState) (now : ℤ)
    (h : (keysOf st.peers).Nodup) : (stalePeers st now).Nodup := by
  have hsub : List.Sublist
      ((st.peers.filter
        (fun p => decide (DISCOVERY_INTERVAL * 3 < now - p.2))).map (·.1))
      (st.peers.map (·.1)) :=
    (List.filter_sublist st.peers).map (·.1)
  exact (List.Sublist.nodup hsub) h

theorem stale_hasAssoc (st : DiscoveryState) (now : ℤ) (ip : String)
    (h : ip ∈ stalePeers st now) : hasAssoc st.peers ip = true := by
  rcases (mem_stalePeers st now ip).mp h with ⟨last, hmem, -⟩
  exact (hasAssoc_iff_mem_keysOf st.peers ip).mpr
    (by exact List.mem_map.mpr ⟨(ip, last), hmem, rfl⟩)

theorem filter_map_lost (ip : String) :
    ∀ (ips : List String), ips.Nodup →
    (ips.map DiscEvent.lost).filter (epiOf ip)
      = if ip ∈ ips then [DiscEvent.lost ip] else [] := by
  intro ips
  induction ips with
  | nil => intro _; rfl
  | cons i t ih =>
    intro hnd
    obtain ⟨hni, hndt⟩ := List.nodup_cons.mp hnd
    simp only [List.map_cons, List.filter_cons]
    by_cases h : i = ip
    · subst h
      rw [show epiOf i (DiscEvent.lost i) = true by simp [epiOf]]
      simp only [reduceIte]
      rw [ih hndt, if_neg hni, if_pos (List.mem_cons_self i t)]
    · rw [show epiOf ip (DiscEvent.lost i) = false by simp [epiOf, h]]
      simp only [Bool.false_eq_true, reduceIte]
      rw [ih hndt]
      by_cases hm : ip ∈ t
      · rw [if_pos hm, if_pos (List.mem_cons_of_mem i hm)]
      · rw [if_neg hm, if_neg (by
          intro hc
          rcases List.mem_cons.mp hc with e | e
          · exact h e.symm
          · exact hm e)]

/-! ### The alternation hyperproperty -/

theorem altFrom_run (ip : String) : ∀ (ins : List DiscInput) (st : DiscoveryState),
    (keysOf st.peers).Nodup →
    altFrom (!hasAssoc st.peers ip) ((discRunFrom st ins).2.filter (epiOf ip)) = true := by
  intro ins
  induction ins with
  | nil => intro st _; rfl
  | cons i rest ih =>
    intro st hnd
    simp only [discRunFrom, List.filter_append]
    match i with
    | .heartbeat ip' name now =>
      simp only [discStep, handleDiscovery]
      have hnd' : (keysOf (setAssoc st.peers ip' now)).Nodup :=
        nodup_keysOf_setAssoc st.peers ip' now hnd
      have hih := ih ⟨setAssoc st.peers ip' now, setAssoc st.peer_names ip' name⟩ hnd'
      by_cases hip : ip' = ip
      · subst hip
        have hha : hasAssoc (setAssoc st.peers ip' now) ip' = true := by
          rw [hasAssoc_setAssoc]; simp
        rw [hha] at hih
        by_cases hnew : hasAssoc st.peers ip'
        · rw [hnew]
          simp only [Bool.not_true, reduceIte, List.filter_nil, List.nil_append]
          simpa using hih
        · rw [Bool.not_eq_true] at hnew
          rw [hnew]
          simp only [Bool.not_false, reduceIte]
          rw [show (List.filter (epiOf ip') [DiscEvent.discovered ip' name])
                = [DiscEvent.discovered ip' name] by simp [epiOf]]
          simp only [List.cons_append, List.nil_append, altFrom, isDisc, Bool.not_true,
            Bool.not_false, beq_self_eq_true, Bool.true_and]
          simpa using hih
      · have hha : hasAssoc (setAssoc st.peers ip' now) ip = hasAssoc st.peers ip := by
          rw [hasAssoc_setAssoc,
            show decide (ip = ip') = false from decide_eq_false (fun e => hip e.symm),
            Bool.false_or]
        rw [hha] at hih
        have hfil : ∀ es : List DiscEvent,
            (if (!hasAssoc st.peers ip') = true
              then [DiscEvent.discovered ip' name] else ([]:List DiscEvent)).filter (epiOf ip)
                = [] := by
          intro es
          by_cases hnew : hasAssoc st.peers ip'
          · simp [hnew]
          · simp only [Bool.not_eq_true] at hnew
            simp [hnew, epiOf, hip]
        rw [hfil []]
        simpa using hih
    | .cleanup now =>
      simp only [discStep, cleanupPass]
      have hsn : (stalePeers st now).Nodup := nodup_stalePeers st now hnd
      have hpeers : ((stalePeers st now).foldl removeIp st).peers
          = (stalePeers st now).foldl delAssoc st.peers := foldl_removeIp_peers _ _
      have hnd' : (keysOf ((stalePeers st now).foldl removeIp st).peers).Nodup := by
        rw [hpeers]; exact nodup_keysOf_foldl_delAssoc _ _ hnd
      have hih := ih ((stalePeers st now).foldl removeIp st) hnd'
      rw [filter_map_lost ip (stalePeers st now) hsn]
      by_cases hm : ip ∈ stalePeers st now
      · rw [if_pos hm]
        have h1 : hasAssoc st.peers ip = true := stale_hasAssoc st now ip hm
        have h2 : hasAssoc ((stalePeers st now).foldl removeIp st).peers ip = false := by
          rw [hpeers]; exact hasAssoc_foldl_delAssoc_of_mem _ _ _ hm
        rw [h1]
        rw [h2] at hih
        simp only [List.cons_append, List.nil_append, altFrom, isDisc, Bool.not_true,
          Bool.not_false, beq_self_eq_true, Bool.true_and]
        simpa using hih
      · rw [if_neg hm]
        have h2 : hasAssoc ((stalePeers st now).foldl removeIp st).peers ip
            = hasAssoc st.peers ip := by
          rw [hpeers]; exact hasAssoc_foldl_delAssoc_of_not_mem _ _ _ hm
        rw [h2] at hih
        simpa using hih

/-! ### Extra key-set lemmas -/

theorem hasAssoc_eq_decide_mem {α : Type} (l : List (String × α)) (k : String) :
    hasAssoc l k = decide (k ∈ keysOf l) := by
  cases hb : hasAssoc l k
  · have hn : ¬k ∈ keysOf l := fun hm => by
      rw [(hasAssoc_iff_mem_keysOf l k).mpr hm] at hb
      exact Bool.noConfusion hb
    simp [hn]
  · simp [(hasAssoc_iff_mem_keysOf l k).mp hb]

theorem keysEq_handleDiscovery (st : DiscoveryState) (ip name : String) (now : ℤ)
    (h : keysOf st.peers = keysOf st.peer_names) :
    keysOf (handleDiscovery st ip name now).1.peers
      = keysOf (handleDiscovery st ip name now).1.peer_names := by
  show keysOf (setAssoc st.peers ip now) = keysOf (setAssoc st.peer_names ip name)
  have hh : hasAssoc st.peer_names ip = hasAssoc st.peers ip := by
    rw [hasAssoc_eq_decide_mem, hasAssoc_eq_decide_mem, h]
  cases hk : hasAssoc st.peers ip
  · rw [keysOf_setAssoc_of_not _ _ _ hk, keysOf_setAssoc_of_not _ _ _ (hh.trans hk), h]
  · rw [keysOf_setAssoc_of_has _ _ _ hk, keysOf_setAssoc_of_has _ _ _ (hh.trans hk), h]

theorem keysEq_foldl_delAssoc :
    ∀ (ips : List String) (l1 : List (String × ℤ)) (l2 : List (String × String)),
    keysOf l1 = keysOf l2 →
    keysOf (ips.foldl delAssoc l1) = keysOf (ips.foldl delAssoc l2) := by
  intro ips
  induction ips with
  | nil => intro l1 l2 h; exact h
  | cons i t ih =>
    intro l1 l2 h
    exact ih _ _ (by rw [keysOf_delAssoc, keysOf_delAssoc, h])

theorem keysEq_cleanupPass (st : DiscoveryState) (now : ℤ)
    (h : keysOf st.peers = keysOf st.peer_names) :
    keysOf (cleanupPass st now).1.peers = keysOf (cleanupPass st now).1.peer_names := by
  show keysOf ((stalePeers st now).foldl removeIp st).peers
      = keysOf ((stalePeers st now).foldl removeIp st).peer_names
  rw [foldl_removeIp_peers, foldl_removeIp_names]
  exact keysEq_foldl_delAssoc _ _ _ h

/-! ### The discovery claims -/

/-- C3: the discovered-callback fires exactly on an unknown ip's heartbeat
and not on a known one; a peer whose last heartbeat is more than
`DISCOVERY_INTERVAL * 3` old is removed by the cleanup pass with exactly one
lost-callback; and along every input trace from the initial state the
callbacks for any fixed ip strictly alternate discovered, lost, discovered,
lost, ... -/
theorem c3_discovery_lifecycle :
    (∀ (st : DiscoveryState) (ip name : String) (now : ℤ),
        hasAssoc st.peers ip = false →
        (handleDiscovery st ip name now).2 = [.discovered ip name]) ∧
    (∀ (st : DiscoveryState) (ip name : String) (now : ℤ),
        hasAssoc st.peers ip = true →
        (handleDiscovery st ip name now).2 = []) ∧
    (∀ (st : DiscoveryState) (ip : String) (last now : ℤ),
        (keysOf st.peers).Nodup → (ip, last) ∈ st.peers →
        DISCOVERY_INTERVAL * 3 < now - last →
        (cleanupPass st now).2.count (.lost ip) = 1 ∧
        hasAssoc (cleanupPass st now).1.peers ip = false) ∧
    (∀ (ip : String) (ins : List DiscInput),
        altFrom true ((discRun ins).2.filter (epiOf ip)) = true) := by
  refine ⟨?_, ?_, ?_, ?_⟩
  · intro st ip name now h
    simp [handleDiscovery, h]
  · intro st ip name now h
    simp [handleDiscovery, h]
  · intro st ip last now hnd hmem hstale
    have hm : ip ∈ stalePeers st now :=
      (mem_stalePeers st now ip).mpr ⟨last, hmem, hstale⟩
    have hsn : (stalePeers st now).Nodup := nodup_stalePeers st now hnd
    constructor
    · show ((stalePeers st now).map DiscEvent.lost).count (DiscEvent.lost ip) = 1
      rw [List.count_map_of_injective _ DiscEvent.lost
        (fun a b hab => by injection hab) ip]
      exact List.count_eq_one_of_mem hsn hm
    · show hasAssoc ((stalePeers st now).foldl removeIp st).peers ip = false
      rw [foldl_removeIp_peers]
      exact hasAssoc_foldl_delAssoc_of_mem _ _ _ hm
  · intro ip ins
    have h := altFrom_run ip ins initialDiscoveryState (by simp [initialDiscoveryState, keysOf])
    simpa [initialDiscoveryState, hasAssoc] using h

def c3St : DiscoveryState := ⟨[("10.0.0.5", 0)], [("10.0.0.5", "alice")]⟩

theorem c3_discovery_lifecycle_witness :
    (handleDiscovery initialDiscoveryState "10.0.0.5" "alice" 0).2
      = [.discovered "10.0.0.5" "alice"] ∧
    (handleDiscovery c3St "10.0.0.5" "alice" 2).2 = [] ∧
    ((cleanupPass c3St 7).2.count (.lost "10.0.0.5") = 1 ∧
      hasAssoc (cleanupPass c3St 7).1.peers "10.0.0.5" = false) ∧
    altFrom true ((discRun [.heartbeat "10.0.0.5" "alice" 0, .cleanup 7,
        .heartbeat "10.0.0.5" "alice" 8]).2.filter (epiOf "10.0.0.5")) = true :=
  ⟨c3_discovery_lifecycle.1 initialDiscoveryState "10.0.0.5" "alice" 0 (by decide),
   c3_discovery_lifecycle.2.1 c3St "10.0.0.5" "alice" 2 (by decide),
   c3_discovery_lifecycle.2.2.1 c3St "10.0.0.5" 0 7 (by decide) (by decide) (by decide),
   c3_discovery_lifecycle.2.2.2 "10.0.0.5"
     [.heartbeat "10.0.0.5" "alice" 0, .cleanup 7, .heartbeat "10.0.0.5" "alice" 8]⟩

def c8St : DiscoveryState := ⟨[("10.0.0.5", 0)], [("10.0.0.5", "bobby")]⟩

/-- C8 counterexample: a heartbeat from a known ip with a different display
name fires no callback but overwrites the stored name, which the claim says
is left unchanged. -/
theorem c8_refresh_overwrites_name :
    hasAssoc c8St.peers "10.0.0.5" = true ∧
    getAssoc c8St.peer_names "10.0.0.5" = some "bobby" ∧
    (handleDiscovery c8St "10.0.0.5" "bob" 1).2 = [] ∧
    getAssoc (handleDiscovery c8St "10.0.0.5" "bob" 1).1.peer_names "10.0.0.5"
      = some "bob" := by
  exact ⟨by decide, by decide, by decide, by decide⟩

/-- C8 (amended): a heartbeat from a known ip fires no callback, refreshes
that ip's last-seen time, overwrites its stored display name with the
heartbeat's name (the code assigns `peer_names[ip] = name` unconditionally),
and leaves every other ip's entries in both maps unchanged. -/
theorem c8_known_heartbeat_refresh (st : DiscoveryState) (ip name : String) (now : ℤ)
    (h : hasAssoc st.peers ip = true) :
    (handleDiscovery st ip name now).2 = [] ∧
    getAssoc (handleDiscovery st ip name now).1.peers ip = some now ∧
    getAssoc (handleDiscovery st ip name now).1.peer_names ip = some name ∧
    (∀ ip', ip' ≠ ip →
      getAssoc (handleDiscovery st ip name now).1.peers ip' = getAssoc st.peers ip' ∧
      getAssoc (handleDiscovery st ip name now).1.peer_names ip'
        = getAssoc st.peer_names ip') := by
  refine ⟨by simp [handleDiscovery, h], ?_, ?_, ?_⟩
  · exact getAssoc_setAssoc_self st.peers ip now
  · exact getAssoc_setAssoc_self st.peer_names ip name
  · intro ip' hne
    exact ⟨getAssoc_setAssoc_ne st.peers ip ip' now hne,
           getAssoc_setAssoc_ne st.peer_names ip ip' name hne⟩

def c8St2 : DiscoveryState :=
  ⟨[("10.0.0.5", 0), ("10.0.0.6", 1)], [("10.0.0.5", "alice"), ("10.0.0.6", "carol")]⟩

theorem c8_known_heartbeat_refresh_witness :
    (handleDiscovery c8St2 "10.0.0.5" "bob" 5).2 = [] ∧
    getAssoc (handleDiscovery c8St2 "10.0.0.5" "bob" 5).1.peers "10.0.0.5" = some 5 ∧
    getAssoc (handleDiscovery c8St2 "10.0.0.5" "bob" 5).1.peer_names "10.0.0.6"
      = some "carol" :=
  ⟨(c8_known_heartbeat_refresh c8St2 "10.0.0.5" "bob" 5 (by decide)).1,
   (c8_known_heartbeat_refresh c8St2 "10.0.0.5" "bob" 5 (by decide)).2.1,
   ((c8_known_heartbeat_refresh c8St2 "10.0.0.5" "bob" 5 (by decide)).2.2.2 "10.0.0.6"
     (by decide)).2⟩

/-- C9: both table operations keep the key set of `peers` equal to the key
set of `peer_names` — a heartbeat upserts the ip into both maps, a removal
deletes it from both (before the lost-callback), every stale ip is gone from
both maps after a cleanup pass, and the equality is an invariant of every
input trace from the initial state. -/
theorem c9_key_sets_in_sync :
    (∀ (st : DiscoveryState) (ip name : String) (now : ℤ),
        keysOf st.peers = keysOf st.peer_names →
        keysOf (handleDiscovery st ip name now).1.peers
          = keysOf (handleDiscovery st ip name now).1.peer_names) ∧
    (∀ (st : DiscoveryState) (now : ℤ),
        keysOf st.peers = keysOf st.peer_names →
        keysOf (cleanupPass st now).1.peers = keysOf (cleanupPass st now).1.peer_names) ∧
    (∀ (st : DiscoveryState) (ip : String),
        hasAssoc (removeIp st ip).peers ip = false ∧
        hasAssoc (removeIp st ip).peer_names ip = false) ∧
    (∀ (st : DiscoveryState) (now : ℤ) (ip : String), ip ∈ stalePeers st now →
        hasAssoc (cleanupPass st now).1.peers ip = false ∧
        hasAssoc (cleanupPass st now).1.peer_names ip = false) ∧
    (∀ (ins : List DiscInput),
        keysOf (discRun ins).1.peers = keysOf (discRun ins).1.peer_names) := by
  refine ⟨?_, ?_, ?_, ?_, ?_⟩
  · exact keysEq_handleDiscovery
  · exact keysEq_cleanupPass
  · intro st ip
    exact ⟨hasAssoc_delAssoc_self st.peers ip, hasAssoc_delAssoc_self st.peer_names ip⟩
  · intro st now ip hm
    constructor
    · show hasAssoc ((stalePeers st now).foldl removeIp st).peers ip = false
      rw [foldl_removeIp_peers]
      exact hasAssoc_foldl_delAssoc_of_mem _ _ _ hm
    · show hasAssoc ((stalePeers st now).foldl removeIp st).peer_names ip = false
      rw [foldl_removeIp_names]
      exact hasAssoc_foldl_delAssoc_of_mem _ _ _ hm
  · have hinv : ∀ (ins : List DiscInput) (st : DiscoveryState),
        keysOf st.peers = keysOf st.peer_names →
        keysOf (discRunFrom st ins).1.peers
          = keysOf (discRunFrom st ins).1.peer_names := by
      intro ins
      induction ins with
      | nil => intro st h; exact h
      | cons i rest ih =>
        intro st h
        match i with
        | .heartbeat ip name now =>
          exact ih _ (keysEq_handleDiscovery st ip name now h)
        | .cleanup now =>
          exact ih _ (keysEq_cleanupPass st now h)
    intro ins
    exact hinv ins initialDiscoveryState rfl

def c9St : DiscoveryState :=
  ⟨[("10.0.0.5", 0), ("10.0.0.8", 6)], [("10.0.0.5", "alice"), ("10.0.0.8", "erin")]⟩

theorem c9_key_sets_in_sync_witness :
    keysOf (handleDiscovery c9St "10.0.0.7" "dave" 2).1.peers
      = keysOf (handleDiscovery c9St "10.0.0.7" "dave" 2).1.peer_names ∧
    (hasAssoc (cleanupPass c9St 9).1.peers "10.0.0.5" = false ∧
     hasAssoc (cleanupPass c9St 9).1.peer_names "10.0.0.5" = false) :=
  ⟨c9_key_sets_in_sync.1 c9St "10.0.0.7" "dave" 2 (by decide),
   c9_key_sets_in_sync.2.2.2.1 c9St 9 "10.0.0.5" (by decide)⟩



end PiMessenger
